import Mathlib

/-!
# Verification of the st-solguard audit pipeline

A shallow embedding, in Lean 4, of the core deterministic logic of the
`st-solguard` security-audit pipeline (Rust), together with theorems about
that logic.

Modelling conventions, used uniformly below:

* Rust `String`/`&str` values are modelled as `List Char` (`Str` below).
  Rust's byte indices (`find`, slicing) coincide with character indices on
  ASCII data; every concrete input used in a theorem below is ASCII.
* Rust `f64` values are modelled as `ℚ`.  All numeric constants of the
  program (severity weights, validation multipliers, per-token rates,
  risk-level thresholds) are exactly representable, and all claims settled
  here only involve exact arithmetic on such constants.
* External effects (the LLM `converse` call, `serde_json` parsing of LLM
  output, filesystem access, hashing) are modelled as oracle parameters;
  the repository's own control flow around them is translated faithfully.
* A Rust `panic!` (out-of-order slice index) is modelled by an `Option`
  result being `none`.
-/

/-- Rust strings as lists of characters. -/
abbrev Str := List Char

/-- Coerce a Lean string literal to the model's string type. -/
def strOf (s : String) : Str := s.toList

/-- `occursAt n h i`: the needle `n` occurs in the haystack `h` at index `i`
(Rust `h[i..].starts_with(n)`). -/
def occursAt (n h : Str) (i : Nat) : Prop := n.IsPrefix (h.drop i)

instance (n h : Str) (i : Nat) : Decidable (occursAt n h i) := by
  unfold occursAt
  infer_instance

/-- Rust `str::find` for a string needle: index of the first occurrence. -/
def findSub (n : Str) : Str → Option Nat
  | [] => if n = [] then some 0 else none
  | c :: t => if n.IsPrefix (c :: t) then some 0 else (findSub n t).map (· + 1)

instance : ∀ (n h : Str), Decidable (n.IsPrefix h) := fun n h =>
  decidable_of_iff (n.isPrefixOf h = true) List.isPrefixOf_iff_prefix

/-- Rust `str::contains` for a string needle. -/
def containsSub (n h : Str) : Bool := (findSub n h).isSome

/-- Rust `str::find` for a char needle. -/
def findChar (c : Char) (h : Str) : Option Nat := findSub [c] h

/-- Rust `str::rfind` for a char needle: index of the last occurrence. -/
def rfindChar (c : Char) (h : Str) : Option Nat :=
  (findSub [c] h.reverse).map (fun i => h.length - 1 - i)

/-- Rust `str::trim` (drop leading and trailing whitespace). -/
def trimStr (s : Str) : Str :=
  ((s.dropWhile Char.isWhitespace).reverse.dropWhile Char.isWhitespace).reverse

/-- Rust `str::trim_start` (drop leading whitespace). -/
def trimStart (s : Str) : Str := s.dropWhile Char.isWhitespace

/-- Split a list on a separator character; `splitOnChar '/' "a/b" = ["a","b"]`. -/
def splitOnChar (sep : Char) : Str → List Str
  | [] => [[]]
  | c :: t =>
    let rest := splitOnChar sep t
    if c = sep then [] :: rest
    else match rest with
      | [] => [[c]]
      | r :: rs => (c :: r) :: rs

/-- Rust `str::lines`: split on `'\n'`, strip a trailing `'\r'` from each
line, and do not yield a final empty line for a trailing newline. -/
def rustLines (s : Str) : List Str :=
  if s = [] then []
  else
    let parts := splitOnChar '\n' s
    let parts := if s.getLast? = some '\n' then parts.dropLast else parts
    parts.map (fun l => if l.getLast? = some '\r' then l.dropLast else l)

/-- Join a list of lines with `'\n'` (Rust `join("\n")`). -/
def joinNL : List Str → Str
  | [] => []
  | [l] => l
  | l :: ls => l ++ '\n' :: joinNL ls

/-- Rust `str::to_lowercase`, restricted to the ASCII case mapping. -/
def toLowerStr (s : Str) : Str := s.map Char.toLower

-- ## Basic facts about `findSub` and `occursAt`

theorem occursAt_of_findSub_eq_some {n h : Str} {i : Nat}
    (hf : findSub n h = some i) : occursAt n h i := by
  induction h generalizing i with
  | nil =>
    unfold findSub at hf
    by_cases hn : n = [] <;> simp [hn] at hf
    subst hf; simp [occursAt, hn]
  | cons c t ih =>
    unfold findSub at hf
    by_cases hp : n.IsPrefix (c :: t)
    · simp [hp] at hf; subst hf; simpa [occursAt] using hp
    · simp [hp] at hf
      obtain ⟨j, hj, rfl⟩ := hf
      have := ih hj
      simpa [occursAt] using this

theorem findSub_min {n h : Str} {i : Nat} (hf : findSub n h = some i)
    {j : Nat} (hj : j < i) : ¬ occursAt n h j := by
  induction h generalizing i j with
  | nil =>
    unfold findSub at hf
    by_cases hn : n = [] <;> simp [hn] at hf
    omega
  | cons c t ih =>
    unfold findSub at hf
    by_cases hp : n.IsPrefix (c :: t)
    · simp [hp] at hf; omega
    · simp [hp] at hf
      obtain ⟨i', hi', rfl⟩ := hf
      cases j with
      | zero => simpa [occursAt] using hp
      | succ j' =>
        intro hocc
        exact ih (i := i') (j := j') hi' (by omega) (by simpa [occursAt] using hocc)

theorem findSub_isSome_of_occursAt {n h : Str} {i : Nat}
    (hocc : occursAt n h i) : (findSub n h).isSome := by
  induction h generalizing i with
  | nil =>
    unfold occursAt at hocc
    simp at hocc
    unfold findSub
    simp [hocc]
  | cons c t ih =>
    unfold findSub
    by_cases hp : n.IsPrefix (c :: t)
    · simp [hp]
    · simp [hp]
      cases i with
      | zero => exact absurd (by simpa [occursAt] using hocc) hp
      | succ i' => exact Option.isSome_map' (f := (· + 1)) ▸ ih (i := i') (by simpa [occursAt] using hocc)

theorem findSub_eq_none_iff {n h : Str} :
    findSub n h = none ↔ ∀ i, ¬ occursAt n h i := by
  constructor
  · intro hn i hocc
    have := findSub_isSome_of_occursAt hocc
    simp [hn] at this
  · intro hno
    cases hf : findSub n h with
    | none => rfl
    | some i => exact absurd (occursAt_of_findSub_eq_some hf) (hno i)

theorem findSub_eq_some_of {n h : Str} {i : Nat}
    (hocc : occursAt n h i) (hmin : ∀ j < i, ¬ occursAt n h j) :
    findSub n h = some i := by
  cases hf : findSub n h with
  | none => exact absurd hocc (findSub_eq_none_iff.mp hf i)
  | some k =>
    rcases Nat.lt_trichotomy k i with hlt | heq | hgt
    · exact absurd (occursAt_of_findSub_eq_some hf) (hmin k hlt)
    · exact congrArg some heq
    · exact absurd hocc (findSub_min hf hgt)

theorem occursAt_getElem {n h : Str} {i : Nat} (hocc : occursAt n h i)
    {k : Nat} (hk : k < n.length) : h[i + k]? = n[k]? := by
  unfold occursAt at hocc
  obtain ⟨t, ht⟩ := hocc
  have hdrop : (h.drop i)[k]? = n[k]? := by
    rw [← ht]; exact List.getElem?_append_left hk
  rwa [List.getElem?_drop] at hdrop

theorem containsSub_of_occursAt {n h : Str} {i : Nat}
    (hocc : occursAt n h i) : containsSub n h = true := by
  simpa [containsSub] using findSub_isSome_of_occursAt hocc

theorem exists_occursAt_of_containsSub {n h : Str}
    (hc : containsSub n h = true) : ∃ i, occursAt n h i := by
  unfold containsSub at hc
  cases hf : findSub n h with
  | none => simp [hf] at hc
  | some i => exact ⟨i, occursAt_of_findSub_eq_some hf⟩

-- ## `src/llm.rs`: JSON extraction and cost estimation

/-- The brace-slice fallback of `llm.rs::extract_json` (lines 730-735):
the substring from the first `'{'` to the last `'}'`, else the raw text.
Rust slices `&text[start..=end]`, which panics when the first `'{'` is
more than one position past the last `'}'`; the panic is modelled as
`none`. -/
def extract_json_braces (text : Str) : Option Str :=
  match findChar '{' text, rfindChar '}' text with
  | some s, some e =>
    if s ≤ e + 1 then some ((text.drop s).take (e + 1 - s)) else none
  | _, _ => some text

/-- The bare-fence branch of `llm.rs::extract_json` (lines 721-729),
falling through to the brace slice. -/
def extract_json_fence (text : Str) : Option Str :=
  match findSub (strOf "```") text with
  | some s =>
    match findSub (strOf "```") (text.drop (s + 3)) with
    | some e =>
      if (trimStr ((text.drop (s + 3)).take e)).head? = some '{' ∨
          (trimStr ((text.drop (s + 3)).take e)).head? = some '[' then
        some (trimStr ((text.drop (s + 3)).take e))
      else extract_json_braces text
    | none => extract_json_braces text
  | none => extract_json_braces text

/-- Embedding of `llm.rs::extract_json` (lines 713-736): first a
` ```json ` fence, else a bare fence whose trimmed inner text starts with
`{` or `[`, else the brace slice, else the raw text. -/
def extract_json (text : Str) : Option Str :=
  match findSub (strOf "```json") text with
  | some s =>
    match findSub (strOf "```") (text.drop (s + 7)) with
    | some e => some (trimStr ((text.drop (s + 7)).take e))
    | none => extract_json_fence text
  | none => extract_json_fence text

/-- Embedding of `llm.rs::Usage`. -/
structure Usage where
  input_tokens : Nat
  output_tokens : Nat
deriving Repr, DecidableEq

/-- Embedding of `llm.rs::estimate_cost_usd` (lines 787-800).  `f64` rates
are modelled as exact rationals; the guard chain keeps the source order. -/
def estimate_cost_usd (usage : Usage) (model : Str) : ℚ :=
  let rates : ℚ × ℚ :=
    if containsSub (strOf "opus") model then (15, 75)
    else if containsSub (strOf "sonnet") model then (3, 15)
    else if containsSub (strOf "haiku") model then (1/4, 5/4)
    else if containsSub (strOf "gpt-4o") model then (5/2, 10)
    else if containsSub (strOf "gpt-4") model then (10, 30)
    else if containsSub (strOf ":free") model then (0, 0)
    else (1, 2)
  ((usage.input_tokens : ℚ) * rates.1 + (usage.output_tokens : ℚ) * rates.2) / 1000000

-- ## A reference JSON grammar
--
-- The spec speaks of strings that "parse as JSON".  The following is an
-- executable recursive-descent parser for the JSON fragment needed by the
-- documents appearing in the theorems below (null/true/false, integer
-- numerals, strings with single-character escapes, arrays, objects).  It is
-- a spec-side definition, not a translation of repository code.

/-- JSON values. -/
inductive Json where
  | null : Json
  | bool (b : Bool) : Json
  | num (n : Int) : Json
  | str (s : Str) : Json
  | arr (elems : List Json) : Json
  | obj (fields : List (Str × Json)) : Json
deriving Repr

/-- JSON whitespace. -/
def jsonWs (c : Char) : Bool := c = ' ' || c = '\t' || c = '\n' || c = '\r'

/-- Skip JSON whitespace. -/
def skipWs (s : Str) : Str := s.dropWhile jsonWs

/-- Parse the body of a JSON string after the opening quote; an escape keeps
the escaped character. -/
def parseStringBody : Str → Option (Str × Str)
  | [] => none
  | '"' :: rest => some ([], rest)
  | '\\' :: c :: rest => (parseStringBody rest).map (fun p => (c :: p.1, p.2))
  | c :: rest => (parseStringBody rest).map (fun p => (c :: p.1, p.2))

/-- Parse a nonempty run of decimal digits. -/
def parseDigits (s : Str) : Option (Nat × Str) :=
  let ds := s.takeWhile Char.isDigit
  if ds = [] then none
  else some (ds.foldl (fun a c => a * 10 + (c.toNat - 48)) 0, s.dropWhile Char.isDigit)

mutual

/-- Parse one JSON value (fuel-bounded). -/
def parseJsonVal : Nat → Str → Option (Json × Str)
  | 0, _ => none
  | fuel + 1, s =>
    match skipWs s with
    | 'n' :: 'u' :: 'l' :: 'l' :: rest => some (.null, rest)
    | 't' :: 'r' :: 'u' :: 'e' :: rest => some (.bool true, rest)
    | 'f' :: 'a' :: 'l' :: 's' :: 'e' :: rest => some (.bool false, rest)
    | '"' :: rest => (parseStringBody rest).map (fun p => (.str p.1, p.2))
    | '[' :: rest =>
      (match skipWs rest with
       | ']' :: r => some (.arr [], r)
       | r => (parseJsonElems fuel r).map (fun p => (.arr p.1, p.2)))
    | '{' :: rest =>
      (match skipWs rest with
       | '}' :: r => some (.obj [], r)
       | r => (parseJsonFields fuel r).map (fun p => (.obj p.1, p.2)))
    | '-' :: rest => (parseDigits rest).map (fun p => (.num (-(p.1 : Int)), p.2))
    | c :: rest =>
      if c.isDigit then (parseDigits (c :: rest)).map (fun p => (.num (p.1 : Int), p.2))
      else none
    | [] => none

/-- Parse the elements of a nonempty JSON array, up to the closing bracket. -/
def parseJsonElems : Nat → Str → Option (List Json × Str)
  | 0, _ => none
  | fuel + 1, s => do
    let (v, r) ← parseJsonVal fuel s
    match skipWs r with
    | ',' :: r' => do
      let (es, r2) ← parseJsonElems fuel r'
      some (v :: es, r2)
    | ']' :: r' => some ([v], r')
    | _ => none

/-- Parse the fields of a nonempty JSON object, up to the closing brace. -/
def parseJsonFields : Nat → Str → Option (List (Str × Json) × Str)
  | 0, _ => none
  | fuel + 1, s =>
    match skipWs s with
    | '"' :: rest => do
      let (k, r) ← parseStringBody rest
      match skipWs r with
      | ':' :: r' => do
        let (v, r2) ← parseJsonVal fuel r'
        match skipWs r2 with
        | ',' :: r3 => do
          let (fs, r4) ← parseJsonFields fuel r3
          some ((k, v) :: fs, r4)
        | '}' :: r3 => some ([(k, v)], r3)
        | _ => none
      | _ => none
    | _ => none

end

/-- Parse a complete JSON document: one value and then only whitespace. -/
def jsonParse (s : Str) : Option Json :=
  match parseJsonVal (s.length + 1) s with
  | some (v, rest) => if skipWs rest = [] then some v else none
  | none => none

-- ## C10: `extract_json` totality

/-- C10: the claim states that `extract_json` returns a well-defined
substring for every input, in particular when the first `'{'` occurs after
the last `'}'`.  The code violates this: on `"}x{"` the first `'{'` is at
index 2 and the last `'}'` at index 0, so `&text[2..=0]` panics
(start exceeds end+1); the model returns `none` exactly there. -/
theorem extract_json_panic_on_unordered_braces :
    findChar '{' ['}', 'x', '{'] = some 2 ∧
    rfindChar '}' ['}', 'x', '{'] = some 0 ∧
    containsSub (strOf "```") ['}', 'x', '{'] = false ∧
    extract_json ['}', 'x', '{'] = none := by decide

-- ## C9: `estimate_cost_usd` on ":free" models

/-- C9 counterexample: the claim says every model name containing `":free"`
is priced at 0, but the `":free"` arm is tested only after the
`"opus"`/`"sonnet"`/`"haiku"`/`"gpt-4o"`/`"gpt-4"` arms, so a model name such
as `"claude-opus:free"` is billed at opus rates. -/
theorem estimate_cost_usd_free_counterexample :
    containsSub (strOf ":free") (strOf "claude-opus:free") = true ∧
    estimate_cost_usd ⟨1000000, 0⟩ (strOf "claude-opus:free") = 15 ∧
    (15 : ℚ) ≠ 0 := by
  refine ⟨by decide, ?_, by norm_num⟩
  have h : containsSub (strOf "opus") (strOf "claude-opus:free") = true := by decide
  unfold estimate_cost_usd
  simp only [h, if_true]
  norm_num

/-- C9 amended: a model name containing `":free"` and none of the
higher-priority rate keys is priced at 0 for every usage. -/
theorem estimate_cost_usd_free_zero (model : Str) (usage : Usage)
    (h1 : containsSub (strOf ":free") model = true)
    (h2 : containsSub (strOf "opus") model = false)
    (h3 : containsSub (strOf "sonnet") model = false)
    (h4 : containsSub (strOf "haiku") model = false)
    (h5 : containsSub (strOf "gpt-4o") model = false)
    (h6 : containsSub (strOf "gpt-4") model = false) :
    estimate_cost_usd usage model = 0 := by
  unfold estimate_cost_usd
  simp [h1, h2, h3, h4, h5, h6]

/-- Witness for `estimate_cost_usd_free_zero` at a concrete model name. -/
theorem estimate_cost_usd_free_zero_witness :
    estimate_cost_usd ⟨123, 456⟩ (strOf "mistral:free") = 0 :=
  estimate_cost_usd_free_zero (strOf "mistral:free") ⟨123, 456⟩
    (by decide) (by decide) (by decide) (by decide) (by decide) (by decide)

-- ## `src/security/agent_tools.rs`: result truncation (C7)

/-- Embedding of `agent_tools.rs::MAX_RESULT_CHARS`. -/
def MAX_RESULT_CHARS : Nat := 5000

/-- The truncation marker appended to oversized tool results. -/
def truncMarker : Str := strOf "\n... [truncated]"

/-- Embedding of `agent_tools.rs::truncate` (lines 143-151).  Rust's byte
length and byte slicing are modelled as character operations (exact on
ASCII data). -/
def truncate (s : Str) : Str :=
  if s.length ≤ MAX_RESULT_CHARS then s
  else s.take MAX_RESULT_CHARS ++ truncMarker

/-- C7 counterexample: the claim bounds every returned tool result by 5 000
characters, but a truncated result is the 5 000-character prefix *plus* the
16-character marker, i.e. 5 016 characters. -/
theorem truncate_exceeds_limit_counterexample :
    (truncate (List.replicate 5001 'a')).length = 5016 ∧
    ¬ (truncate (List.replicate 5001 'a')).length ≤ 5000 ∧
    truncMarker.IsSuffix (truncate (List.replicate 5001 'a')) := by
  have hmark : truncMarker.length = 16 := by decide
  have hlen : (List.replicate 5001 'a' : Str).length = 5001 := List.length_replicate ..
  have hgt : ¬ (List.replicate 5001 'a' : Str).length ≤ MAX_RESULT_CHARS := by
    rw [hlen]; decide
  have ht : truncate (List.replicate 5001 'a') =
      (List.replicate 5001 'a' : Str).take MAX_RESULT_CHARS ++ truncMarker := by
    unfold truncate; rw [if_neg hgt]
  have hlen2 : (truncate (List.replicate 5001 'a')).length = 5016 := by
    rw [ht, List.length_append, List.length_take, hlen, hmark]; decide
  exact ⟨hlen2, by rw [hlen2]; decide, ht ▸ List.suffix_append _ _⟩

/-- C7 amended: a tool result passed through `truncate` is at most
5 016 characters; content up to 5 000 characters passes unchanged, and
longer content is cut to its 5 000-character prefix with the 16-character
marker `"\n... [truncated]"` appended (total exactly 5 016). -/
theorem truncate_bound (s : Str) :
    (truncate s).length ≤ MAX_RESULT_CHARS + 16 ∧
    (s.length ≤ MAX_RESULT_CHARS → truncate s = s) ∧
    (MAX_RESULT_CHARS < s.length →
      truncate s = s.take MAX_RESULT_CHARS ++ truncMarker ∧
      truncMarker.IsSuffix (truncate s) ∧
      (truncate s).length = MAX_RESULT_CHARS + 16) := by
  have hmark : truncMarker.length = 16 := by decide
  by_cases h : s.length ≤ MAX_RESULT_CHARS
  · refine ⟨?_, fun _ => by simp [truncate, h], fun hlt => absurd hlt (by omega)⟩
    simp [truncate, h]; omega
  · have ht : truncate s = s.take MAX_RESULT_CHARS ++ truncMarker := by
      simp [truncate, h]
    have hlen : (truncate s).length = MAX_RESULT_CHARS + 16 := by
      rw [ht, List.length_append, List.length_take, hmark]
      omega
    exact ⟨by omega, fun hle => absurd hle h,
      fun _ => ⟨ht, ht ▸ List.suffix_append _ _, hlen⟩⟩

/-- Witness for `truncate_bound` at a concrete oversized input. -/
theorem truncate_bound_witness :
    MAX_RESULT_CHARS < (List.replicate 5002 'b' : Str).length ∧
    truncate (List.replicate 5002 'b') =
      (List.replicate 5002 'b' : Str).take MAX_RESULT_CHARS ++ truncMarker := by
  have hlen : (List.replicate 5002 'b' : Str).length = 5002 := List.length_replicate ..
  have hlt : MAX_RESULT_CHARS < (List.replicate 5002 'b' : Str).length := by
    rw [hlen]; decide
  exact ⟨hlt, ((truncate_bound (List.replicate 5002 'b')).2.2 hlt).1⟩

-- ## `src/memory.rs`: cross-run memory (C4)

/-- Embedding of `memory.rs::RepoResult`. -/
structure RepoResult where
  name : Str
  findings_count : Nat
  errors : List Str
deriving Repr, DecidableEq

/-- Embedding of `memory.rs::RunHistory` (the data fields; persistence is
out of scope). -/
structure RunHistory where
  timestamp : Str
  signals_collected : Nat
  total_findings : Nat
  repo_results : List RepoResult
deriving Repr, DecidableEq

/-- Embedding of `memory.rs::RunMemory`.  The Rust `HashMap`s are modelled
as association lists; `update_from_run` only reads and writes map entries
by key, never iterates, so map iteration order is irrelevant. -/
structure RunMemory where
  total_runs : Nat
  repo_blocklist : List Str
  error_memory : List (Str × Nat)
  source_reliability : List (Str × ℚ)
  pattern_hit_rates : List (Str × (Nat × Nat))
deriving Repr, DecidableEq

/-- `RunMemory::default()`. -/
def RunMemory.default : RunMemory := ⟨0, [], [], [], []⟩

/-- `*self.error_memory.entry(key).or_insert(0) += 1`, returning the updated
map together with the incremented counter value. -/
def bumpKey : List (Str × Nat) → Str → List (Str × Nat) × Nat
  | [], k => ([(k, 1)], 1)
  | (k', v) :: rest, k =>
    if k' = k then ((k', v + 1) :: rest, v + 1)
    else
      let r := bumpKey rest k
      ((k', v) :: r.1, r.2)

/-- One iteration of the inner loop of `update_from_run` (memory.rs lines
90-105): record one error of one repo, blocklisting the repo when its
counter reaches 3 and it is not yet blocklisted. -/
def noteError (m : RunMemory) (name error : Str) : RunMemory :=
  let key := name ++ ':' :: error
  let bumped := bumpKey m.error_memory key
  if 3 ≤ bumped.2 ∧ name ∉ m.repo_blocklist then
    { m with error_memory := bumped.1,
             repo_blocklist := m.repo_blocklist ++ [name] }
  else
    { m with error_memory := bumped.1 }

/-- Embedding of `memory.rs::RunMemory::update_from_run` (lines 86-106). -/
def update_from_run (m : RunMemory) (history : RunHistory) : RunMemory :=
  let m := { m with total_runs := m.total_runs + 1 }
  history.repo_results.foldl
    (fun m repo => repo.errors.foldl (fun m err => noteError m repo.name err) m) m

/-- Spec-side count of error events recorded for repo `name` across a list
of runs (how often `name` appeared in a `RepoResult` with an error). -/
def errorEvents (runs : List RunHistory) (name : Str) : Nat :=
  (runs.map (fun h =>
    (h.repo_results.map (fun r => if r.name = name then r.errors.length else 0)).sum)).sum

-- Facts about `List.lookup` on association lists and about `bumpKey`.

theorem lookup_cons_self {β : Type} (k : Str) (v : β) (rest : List (Str × β)) :
    List.lookup k ((k, v) :: rest) = some v := by simp [List.lookup]

theorem lookup_cons_ne {β : Type} {k k2 : Str} (h : k ≠ k2) (v : β)
    (rest : List (Str × β)) :
    List.lookup k ((k2, v) :: rest) = List.lookup k rest := by
  have hb : (k == k2) = false := beq_eq_false_iff_ne.mpr h
  simp [List.lookup, hb]

theorem bumpKey_lookup_self (em : List (Str × Nat)) (k : Str) :
    (bumpKey em k).1.lookup k = some (bumpKey em k).2 := by
  induction em with
  | nil => simp [bumpKey, List.lookup]
  | cons p rest ih =>
    obtain ⟨k', v⟩ := p
    by_cases h : k' = k
    · subst h; simp [bumpKey, lookup_cons_self]
    · simp only [bumpKey, if_neg h]
      rw [lookup_cons_ne (Ne.symm h)]
      exact ih

theorem bumpKey_lookup_mono (em : List (Str × Nat)) (k k' : Str) {c : Nat}
    (hl : em.lookup k' = some c) :
    ∃ c', (bumpKey em k).1.lookup k' = some c' ∧ c ≤ c' := by
  induction em with
  | nil => simp [List.lookup] at hl
  | cons p rest ih =>
    obtain ⟨k2, v⟩ := p
    by_cases hk : k' = k2
    · subst hk
      rw [lookup_cons_self] at hl
      injection hl with hvc
      subst hvc
      by_cases h : k' = k
      · subst h
        exact ⟨v + 1, by simp [bumpKey, lookup_cons_self], by omega⟩
      · exact ⟨v, by simp [bumpKey, h, lookup_cons_self], le_refl v⟩
    · rw [lookup_cons_ne hk] at hl
      by_cases h : k2 = k
      · subst h
        exact ⟨c, by simp [bumpKey, lookup_cons_ne hk, hl], le_refl c⟩
      · obtain ⟨c', hc', hle⟩ := ih hl
        exact ⟨c', by simp [bumpKey, h, lookup_cons_ne hk, hc'], hle⟩

/-- The blocklist invariant maintained by `update_from_run`: the blocklist
has no duplicates, and every blocklisted repo has some error-memory key of
the form `repo:error` whose counter is at least 3. -/
def MemInv (m : RunMemory) : Prop :=
  m.repo_blocklist.Nodup ∧
  ∀ r ∈ m.repo_blocklist, ∃ k c,
    m.error_memory.lookup k = some c ∧ 3 ≤ c ∧ (r ++ [':']).IsPrefix k

theorem noteError_inv {m : RunMemory} (hinv : MemInv m) (name error : Str) :
    MemInv (noteError m name error) := by
  obtain ⟨hnd, hkeys⟩ := hinv
  unfold noteError
  by_cases hc : 3 ≤ (bumpKey m.error_memory (name ++ ':' :: error)).2 ∧
      name ∉ m.repo_blocklist
  · rw [if_pos hc]
    obtain ⟨h3, hnotin⟩ := hc
    refine ⟨?_, ?_⟩
    · rw [List.nodup_append]
      refine ⟨hnd, List.nodup_singleton _, ?_⟩
      intro a ha hb
      simp only [List.mem_singleton] at hb
      exact hnotin (hb ▸ ha)
    · intro r hr
      rw [List.mem_append] at hr
      rcases hr with hr | hr
      · obtain ⟨k, c, hl, h3c, hpre⟩ := hkeys r hr
        obtain ⟨c', hl', hle⟩ := bumpKey_lookup_mono m.error_memory _ k hl
        exact ⟨k, c', hl', by omega, hpre⟩
      · simp only [List.mem_singleton] at hr
        rw [hr]
        exact ⟨name ++ ':' :: error, (bumpKey m.error_memory (name ++ ':' :: error)).2,
          bumpKey_lookup_self .., h3, ⟨error, by simp⟩⟩
  · rw [if_neg hc]
    refine ⟨hnd, ?_⟩
    intro r hr
    obtain ⟨k, c, hl, h3c, hpre⟩ := hkeys r hr
    obtain ⟨c', hl', hle⟩ := bumpKey_lookup_mono m.error_memory _ k hl
    exact ⟨k, c', hl', by omega, hpre⟩

theorem foldl_preserve_meminv {α : Type} (step : RunMemory → α → RunMemory)
    (hstep : ∀ m a, MemInv m → MemInv (step m a)) :
    ∀ (l : List α) (m : RunMemory), MemInv m → MemInv (l.foldl step m)
  | [], _, hm => hm
  | a :: t, m, hm => foldl_preserve_meminv step hstep t (step m a) (hstep m a hm)

theorem update_from_run_inv {m : RunMemory} (hinv : MemInv m) (h : RunHistory) :
    MemInv (update_from_run m h) := by
  unfold update_from_run
  exact foldl_preserve_meminv _
    (fun m' repo hm' =>
      foldl_preserve_meminv _ (fun m2 e hm2 => noteError_inv hm2 repo.name e)
        repo.errors m' hm')
    h.repo_results _ ⟨hinv.1, hinv.2⟩

-- Concrete runs used by the C4 counterexample and witness.

/-- A run in which repo `"a"` fails with error `"b:c"`. -/
def c4runA : RunHistory := ⟨strOf "t", 0, 0, [⟨strOf "a", 0, [strOf "b:c"]⟩]⟩

/-- A run in which repo `"a:b"` fails with error `"c"`. -/
def c4runB : RunHistory := ⟨strOf "t", 0, 0, [⟨strOf "a:b", 0, [strOf "c"]⟩]⟩

/-- A run in which repo `"x"` fails with error `"e"`. -/
def c4runX : RunHistory := ⟨strOf "t", 0, 0, [⟨strOf "x", 0, [strOf "e"]⟩]⟩

/-- C4 counterexample: error counters are keyed by the concatenation
`"repo:error"`, so distinct repos can collide on the same key.  After two
failures of repo `"a"` with error `"b:c"` and one failure of repo `"a:b"`
with error `"c"` (all sharing key `"a:b:c"`), repo `"a:b"` is blocklisted
although only one error was ever recorded for it. -/
theorem run_memory_blocklist_counterexample :
    (strOf "a:b") ∈
      ([c4runA, c4runA, c4runB].foldl update_from_run RunMemory.default).repo_blocklist ∧
    errorEvents [c4runA, c4runA, c4runB] (strOf "a:b") = 1 ∧
    ¬ 3 ≤ (1 : Nat) := by decide

/-- C4 amended: starting from a default `RunMemory`, after any finite
sequence of `update_from_run` calls the blocklist has no duplicates, and
every blocklisted repo `r` has some error-memory key of the form `r:e`
whose accumulated counter is at least 3 (counters are keyed by the string
`repo_name:error`, so error events of distinct repos whose concatenations
coincide are commingled). -/
theorem run_memory_blocklist_invariant (runs : List RunHistory) :
    (runs.foldl update_from_run RunMemory.default).repo_blocklist.Nodup ∧
    ∀ r ∈ (runs.foldl update_from_run RunMemory.default).repo_blocklist,
      ∃ k c,
        (runs.foldl update_from_run RunMemory.default).error_memory.lookup k = some c ∧
        3 ≤ c ∧ (r ++ [':']).IsPrefix k :=
  foldl_preserve_meminv update_from_run (fun _ h hm => update_from_run_inv hm h)
    runs RunMemory.default ⟨List.nodup_nil, by simp [RunMemory.default]⟩

/-- Witness for `run_memory_blocklist_invariant`: after three failing runs
of repo `"x"` the repo is blocklisted and the invariant yields its key. -/
theorem run_memory_blocklist_invariant_witness :
    ∃ k c,
      ([c4runX, c4runX, c4runX].foldl update_from_run RunMemory.default).error_memory.lookup k
        = some c ∧ 3 ≤ c ∧ ((strOf "x") ++ [':']).IsPrefix k :=
  (run_memory_blocklist_invariant [c4runX, c4runX, c4runX]).2 (strOf "x") (by decide)

-- ## `src/agent/cross_ref.rs`: narrative/finding cross-reference (C1)

/-- Embedding of `security/mod.rs::ValidationStatus`. -/
inductive ValidationStatus where
  | Unvalidated : ValidationStatus
  | Confirmed : ValidationStatus
  | Disputed : ValidationStatus
  | Dismissed : ValidationStatus
deriving Repr, DecidableEq

/-- Embedding of `security/mod.rs::SecurityFinding`; `file_path` is a path
string. -/
structure SecurityFinding where
  title : Str
  severity : Str
  description : Str
  file_path : Str
  line_number : Nat
  remediation : Str
  validation_status : ValidationStatus
  validation_reasoning : Option Str
deriving Repr, DecidableEq

/-- A default finding, used only to totalize list indexing at indices that
are valid by construction. -/
def SecurityFinding.defaultF : SecurityFinding :=
  ⟨[], [], [], [], 0, [], .Unvalidated, none⟩

/-- Embedding of `narrative/mod.rs::Narrative`. -/
structure Narrative where
  title : Str
  summary : Str
  confidence : ℚ
  trend : Str
  active_repos : List Str
  finding_count : Nat
  risk_score : ℚ
  risk_level : Str
  repo_findings : List (Str × List Nat)
deriving Repr, DecidableEq

/-- Embedding of `cross_ref.rs::NarrativeFindingLink`. -/
structure NarrativeFindingLink where
  narrative_idx : Nat
  finding_idx : Nat
  repo : Str
  relevance : Str
deriving Repr, DecidableEq

/-- Embedding of `cross_ref.rs::validation_multiplier` (lines 191-198). -/
def validation_multiplier : ValidationStatus → ℚ
  | .Confirmed => 1
  | .Disputed => 1/2
  | .Unvalidated => 7/10
  | .Dismissed => 0

/-- The severity-weight match inlined in `cross_ref.rs::analyze`
(lines 72-78). -/
def analyze_severity_weight (severity : Str) : ℚ :=
  if severity = strOf "Critical" then 10
  else if severity = strOf "High" then 5
  else if severity = strOf "Medium" then 2
  else if severity = strOf "Low" then 1/2
  else 0

/-- Embedding of `cross_ref.rs::repo_name_from_path` (lines 201-222).
Path components are modelled by splitting on `'/'` and ignoring empty
segments. -/
def repo_name_from_path (path : Str) : Str :=
  match findSub (strOf "repos/") path with
  | some idx =>
    let after := path.drop (idx + 6)
    match findChar '/' after with
    | some slash => after.take slash
    | none => after
  | none =>
    match (splitOnChar '/' path).filter (fun s =>
        s ≠ [] ∧ s ≠ strOf "." ∧ s ≠ strOf ".." ∧ s ≠ strOf "repos") with
    | [] => strOf "unknown"
    | c :: _ => c

/-- The matched set of `cross_ref.rs::analyze` (lines 46-61): pairs of
finding index and derived repo name whose repo equals some tail of the
narrative's `active_repos`. -/
def matchedPairs (n : Narrative) (findings : List SecurityFinding) :
    List (Nat × Str) :=
  let repo_tails := n.active_repos.filterMap (fun ar => (splitOnChar '/' ar).getLast?)
  findings.enum.filterMap (fun p =>
    let repo := repo_name_from_path p.2.file_path
    if repo_tails.any (fun tail => tail = repo) then some (p.1, repo) else none)

/-- `repo_finding_map.entry(repo).or_default().push(fi)`, on an association
list in first-insertion order (the Rust `HashMap` iterates in arbitrary
order; nothing proved below depends on the order of `repo_findings`). -/
def pushIdx : List (Str × List Nat) → Str → Nat → List (Str × List Nat)
  | [], repo, fi => [(repo, [fi])]
  | (r, is) :: rest, repo, fi =>
    if r = repo then (r, is ++ [fi]) :: rest
    else (r, is) :: pushIdx rest repo fi

/-- The deterministic fallback relevance text of `cross_ref.rs::analyze`
(lines 115-120). -/
def fallbackRelevance (repo : Str) : Str :=
  strOf "Finding in repo " ++ repo ++ strOf " linked to narrative via active_repos"

/-- The per-narrative body of `cross_ref.rs::analyze` (lines 46-137):
compute the matched set, risk score, risk level and per-repo indices,
update the narrative, and emit one link per matched pair.  `llmSummary` is
the result of `try_llm_relevance` (an LLM oracle; `none` models both
failure and an empty reply). -/
def analyzeOne (findings : List SecurityFinding) (llmSummary : Option Str)
    (ni : Nat) (n : Narrative) : Narrative × List NarrativeFindingLink :=
  let matched := matchedPairs n findings
  let risk_score : ℚ := matched.foldl (fun acc p =>
    let f := findings.getD p.1 SecurityFinding.defaultF
    acc + analyze_severity_weight f.severity
        * validation_multiplier f.validation_status * n.confidence) 0
  let repo_findings := matched.foldl (fun m p => pushIdx m p.2 p.1) []
  let risk_level : Str :=
    if risk_score ≥ 20 then strOf "Critical"
    else if risk_score ≥ 10 then strOf "High"
    else if risk_score ≥ 5 then strOf "Medium"
    else if risk_score ≥ 1 then strOf "Low"
    else strOf "None"
  ({ n with finding_count := matched.length,
            risk_score := risk_score,
            risk_level := risk_level,
            repo_findings := repo_findings },
   matched.map (fun p =>
     ⟨ni, p.1, p.2, llmSummary.getD (fallbackRelevance p.2)⟩))

/-- Embedding of `cross_ref.rs::analyze` (lines 33-142).  `rel ni` is the
LLM relevance summary for narrative `ni` (consulted only when the matched
set is nonempty, as in the source). -/
def cross_ref_analyze (narratives : List Narrative)
    (findings : List SecurityFinding) (rel : Nat → Option Str) :
    List Narrative × List NarrativeFindingLink :=
  let results := narratives.enum.map (fun p =>
    analyzeOne findings
      (if matchedPairs p.2 findings ≠ [] then rel p.1 else none) p.1 p.2)
  (results.map Prod.fst, (results.map Prod.snd).flatten)

-- Spec-side definitions for C1, written from the claim's words.

/-- Spec-side risk score: the sum over findings matched to the narrative by
repo tail name of `severity_weight · validation_multiplier · confidence`. -/
def claimRiskScore (n : Narrative) (findings : List SecurityFinding) : ℚ :=
  ((matchedPairs n findings).map (fun p =>
    let f := findings.getD p.1 SecurityFinding.defaultF
    analyze_severity_weight f.severity
      * validation_multiplier f.validation_status * n.confidence)).sum

/-- Spec-side risk level: determined by the score alone through the
thresholds `[20,∞) Critical, [10,20) High, [5,10) Medium, [1,5) Low,
else None`. -/
def claimRiskLevel (score : ℚ) : Str :=
  if score ≥ 20 then strOf "Critical"
  else if score ≥ 10 then strOf "High"
  else if score ≥ 5 then strOf "Medium"
  else if score ≥ 1 then strOf "Low"
  else strOf "None"

theorem foldl_add_map {α : Type} (l : List α) (g : α → ℚ) (init : ℚ) :
    l.foldl (fun acc a => acc + g a) init = init + (l.map g).sum := by
  induction l generalizing init with
  | nil => simp
  | cons a t ih => simp [ih, add_assoc]

/-- C1: for every narrative and finding list, `analyze` sets the
narrative's `risk_score` to the sum over matched findings (matched by repo
tail name) of `severity_weight · validation_multiplier · confidence`, with
weights Critical=10, High=5, Medium=2, Low=0.5 and 0 otherwise, and sets
`risk_level` from that score alone by the thresholds `[20,∞) Critical,
[10,20) High, [5,10) Medium, [1,5) Low, else None`. -/
theorem cross_ref_risk_score_level (narratives : List Narrative)
    (findings : List SecurityFinding) (rel : Nat → Option Str) (i : Nat)
    (n n' : Narrative)
    (hin : narratives[i]? = some n)
    (hout : (cross_ref_analyze narratives findings rel).1[i]? = some n') :
    n'.risk_score = claimRiskScore n findings ∧
    n'.risk_level = claimRiskLevel (claimRiskScore n findings) := by
  have hidx : narratives.enum[i]? = some (i, n) := by
    rw [List.getElem?_enum, hin]; rfl
  have h1 : (cross_ref_analyze narratives findings rel).1[i]? =
      some ((analyzeOne findings
        (if matchedPairs n findings ≠ [] then rel i else none) i n).1) := by
    simp [cross_ref_analyze, List.getElem?_map, hidx]
  rw [h1] at hout
  injection hout with h
  subst h
  have hscore : ((analyzeOne findings
      (if matchedPairs n findings ≠ [] then rel i else none) i n).1).risk_score =
      claimRiskScore n findings := by
    simp [analyzeOne, claimRiskScore, foldl_add_map]
  refine ⟨hscore, ?_⟩
  have hlevel : ((analyzeOne findings
      (if matchedPairs n findings ≠ [] then rel i else none) i n).1).risk_level =
      claimRiskLevel (((analyzeOne findings
        (if matchedPairs n findings ≠ [] then rel i else none) i n).1).risk_score) := by
    simp [analyzeOne, claimRiskLevel]
  rw [hlevel, hscore]

-- Concrete inputs for the C1 witness (scenario S1 of the spec).

/-- A narrative with one active repo and confidence 0.8. -/
def c1narrative : Narrative :=
  ⟨strOf "Vault boom", strOf "summary", 4/5, strOf "Stable",
   [strOf "acme/vault"], 0, 0, strOf "", []⟩

/-- One confirmed critical finding inside `repos/vault/`. -/
def c1finding : SecurityFinding :=
  ⟨strOf "Bad", strOf "Critical", strOf "d", strOf "repos/vault/src/lib.rs",
   3, strOf "r", .Confirmed, none⟩

/-- Witness for `cross_ref_risk_score_level` on spec scenario S1:
one Critical, Confirmed finding at confidence 0.8 gives score 8 and level
`"Medium"`. -/
theorem cross_ref_risk_score_level_witness :
    ∃ n', (cross_ref_analyze [c1narrative] [c1finding] (fun _ => none)).1[0]? = some n' ∧
      n'.risk_score = claimRiskScore c1narrative [c1finding] ∧
      n'.risk_level = claimRiskLevel (claimRiskScore c1narrative [c1finding]) ∧
      claimRiskScore c1narrative [c1finding] = 8 ∧
      claimRiskLevel 8 = strOf "Medium" := by
  have hm : matchedPairs c1narrative [c1finding] = [(0, strOf "vault")] := by decide
  have hw : analyze_severity_weight (strOf "Critical") = 10 := by
    unfold analyze_severity_weight; rw [if_pos rfl]
  have hscore : claimRiskScore c1narrative [c1finding] = 8 := by
    rw [claimRiskScore, hm]
    simp only [List.map_cons, List.map_nil, List.getD]
    show analyze_severity_weight c1finding.severity
        * validation_multiplier c1finding.validation_status * c1narrative.confidence
        + 0 = 8
    rw [show c1finding.severity = strOf "Critical" from rfl, hw,
        show c1finding.validation_status = ValidationStatus.Confirmed from rfl,
        show c1narrative.confidence = 4/5 from rfl]
    norm_num [validation_multiplier]
  have hlevel : claimRiskLevel 8 = strOf "Medium" := by
    rw [claimRiskLevel, if_neg (by norm_num), if_neg (by norm_num), if_pos (by norm_num)]
  exact ⟨_, rfl,
    (cross_ref_risk_score_level [c1narrative] [c1finding] (fun _ => none) 0
      c1narrative _ rfl rfl).1,
    (cross_ref_risk_score_level [c1narrative] [c1finding] (fun _ => none) 0
      c1narrative _ rfl rfl).2,
    hscore, hlevel⟩

-- ## `src/security/regex_scan.rs`: the regex pass (C8)

/-- Embedding of `security/mod.rs::Severity`. -/
inductive Severity where
  | Critical : Severity
  | High : Severity
  | Medium : Severity
  | Low : Severity
  | Info : Severity
deriving Repr, DecidableEq

/-- Embedding of `security/mod.rs::Finding` (the internal pattern-scanner
form). -/
structure Finding where
  pattern_id : Str
  title : Str
  description : Str
  severity : Severity
  file_path : Str
  line_number : Nat
  code_snippet : Str
  remediation : Str
  confidence : ℚ
  references : List Str
deriving Repr, DecidableEq

/-- A compiled pattern of `regex_scan.rs::PATTERNS`.  The `fancy_regex`
engine is external: `isMatch` is the oracle for
`regex.is_match(..).unwrap_or(false)` and `suppressMatch` for the compiled
`suppress_if` (with `none` covering both an absent `suppress_if` and one
that failed to compile, as in `SUPPRESS_RE`); patterns whose own regex
fails to compile are dropped by `COMPILED` before the scan and so are
simply absent from the pattern list here. -/
structure RPattern where
  id : Str
  title : Str
  description : Str
  severity : Severity
  isMatch : Str → Bool
  line_span : Nat
  confidence : ℚ
  suppressMatch : Option (Str → Bool)
  remediation : Str
  references : List Str

/-- Decimal rendering of a line number. -/
def natToStr (n : Nat) : Str := (toString n).toList

/-- Rust `format!("{:>4}", n)`: right-align in a 4-character field. -/
def pad4 (n : Nat) : Str :=
  let s := natToStr n
  List.replicate (4 - s.length) ' ' ++ s

/-- A numbered snippet: lines with 0-based indices in `[lo, hi)`, each
rendered as `format!("{:>4} | {line}", index + 1)`, joined by newlines. -/
def numberedSnippet (lines : List Str) (lo hi : Nat) : Str :=
  joinNL (((lines.drop lo).take (hi - lo)).enum.map
    (fun q => pad4 (lo + q.1 + 1) ++ strOf " | " ++ q.2))

/-- The forward match window of `regex_scan.rs::scan` (lines 197-198):
lines `[i, min(i+span, N))` joined by newline. -/
def scanWindow (lines : List Str) (span i : Nat) : Str :=
  joinNL ((lines.drop i).take (min (i + span) lines.length - i))

/-- The ±3-line suppression context of `regex_scan.rs::scan`
(lines 205-208): lines `[max(0,i-3), min(i+4, N))` joined by newline. -/
def scanCtx (lines : List Str) (i : Nat) : Str :=
  joinNL ((lines.drop (i - 3)).take (min (i + 4) lines.length - (i - 3)))

/-- The Finding built by `regex_scan.rs::scan` at a hit (lines 214-234).
Note `start` is computed from the 1-based `line_number` with
`saturating_sub(3)` and then used as a 0-based slice index. -/
def emitFinding (lines : List Str) (file_path : Str) (p : RPattern)
    (line_idx : Nat) : Finding :=
  let line_number := line_idx + 1
  let start := line_number - 3
  let e := min (line_number + 3) lines.length
  ⟨p.id, p.title, p.description, p.severity, file_path, line_number,
   numberedSnippet lines start e, p.remediation, p.confidence, p.references⟩

/-- One inner-loop iteration of `regex_scan.rs::scan` (lines 188-235):
skip comment lines, match the forward window, check suppression, emit. -/
def scanLineHit (lines : List Str) (file_path : Str) (p : RPattern)
    (line_idx : Nat) : Option Finding :=
  let trimmed := trimStart (lines.getD line_idx [])
  if (strOf "//").IsPrefix trimmed ∨ (strOf "///").IsPrefix trimmed ∨
      (strOf "*").IsPrefix trimmed then none
  else if p.isMatch (scanWindow lines p.line_span line_idx) = true then
    match p.suppressMatch with
    | some sup =>
      if sup (scanCtx lines line_idx) = true then none
      else some (emitFinding lines file_path p line_idx)
    | none => some (emitFinding lines file_path p line_idx)
  else none

/-- Embedding of `regex_scan.rs::scan` (lines 156-239): for each compiled
pattern, for each line index in order, emit at most one finding. -/
def scan (patterns : List RPattern) (content : Str) (file_path : Str) :
    List Finding :=
  let lines := rustLines content
  (patterns.map (fun p =>
    (List.range lines.length).filterMap (scanLineHit lines file_path p))).flatten

/-- Spec-side snippet from the claim's words: the 3 lines before the
matched line (0-based index `i`), the matched line, and the 3 lines after,
each annotated with its 1-based line number. -/
def claimSnippet (lines : List Str) (line_idx : Nat) : Str :=
  numberedSnippet lines (line_idx - 3) (min (line_idx + 4) lines.length)

-- Concrete inputs for the C8 counterexample and witness.

/-- A nine-line file. -/
def c8content : Str := strOf "l1\nl2\nl3\nl4\nl5\nl6\nl7\nl8\nl9"

/-- A pattern whose match oracle fires exactly on the window `"l5"`
(line index 4), with `line_span = 1` and no suppression. -/
def c8pattern : RPattern :=
  ⟨strOf "P-1", strOf "T", strOf "D", .High,
   (fun w => w = strOf "l5"), 1, 1, none, strOf "R", []⟩

/-- C8 counterexample: the claim says the snippet holds the 3 lines before
the matched line, the matched line and the 3 lines after (7 lines here),
but the code computes the slice start from the 1-based line number, so the
snippet holds only 2 lines before the match (6 lines): indices `[2,8)`
instead of the claimed `[1,8)`. -/
theorem regex_scan_snippet_counterexample :
    (scan [c8pattern] c8content (strOf "f.rs")).map Finding.line_number = [5] ∧
    (scan [c8pattern] c8content (strOf "f.rs")).map Finding.code_snippet =
      [numberedSnippet (rustLines c8content) 2 8] ∧
    numberedSnippet (rustLines c8content) 2 8 ≠ claimSnippet (rustLines c8content) 4 ∧
    claimSnippet (rustLines c8content) 4 = numberedSnippet (rustLines c8content) 1 8 := by
  decide

/-- C8 amended: when a pattern's regex matches the forward window at a
non-comment line index `i` and the suppression regex (if any) does not
match the ±3-line context, the scan emits a Finding with
`line_number = i + 1` whose snippet holds the lines with 0-based indices
`[(i+1)-3, min(i+4, N))` — i.e. up to 2 lines before the matched line, the
matched line, and up to 3 lines after (6 lines when available), each
annotated with its correct 1-based line number. -/
theorem regex_scan_emits (patterns : List RPattern) (content file_path : Str)
    (p : RPattern) (i : Nat)
    (hp : p ∈ patterns)
    (hi : i < (rustLines content).length)
    (hcomment : ¬ ((strOf "//").IsPrefix (trimStart ((rustLines content).getD i [])) ∨
        (strOf "///").IsPrefix (trimStart ((rustLines content).getD i [])) ∨
        (strOf "*").IsPrefix (trimStart ((rustLines content).getD i []))))
    (hmatch : p.isMatch (scanWindow (rustLines content) p.line_span i) = true)
    (hsup : ∀ sup, p.suppressMatch = some sup →
        sup (scanCtx (rustLines content) i) = false) :
    emitFinding (rustLines content) file_path p i ∈ scan patterns content file_path ∧
    (emitFinding (rustLines content) file_path p i).line_number = i + 1 ∧
    (emitFinding (rustLines content) file_path p i).code_snippet =
      numberedSnippet (rustLines content) (i + 1 - 3)
        (min (i + 1 + 3) (rustLines content).length) := by
  have hemit : scanLineHit (rustLines content) file_path p i =
      some (emitFinding (rustLines content) file_path p i) := by
    simp only [scanLineHit]
    rw [if_neg hcomment, if_pos hmatch]
    cases hs : p.suppressMatch with
    | none => rfl
    | some sup =>
      show (if sup (scanCtx (rustLines content) i) = true then none
            else some (emitFinding (rustLines content) file_path p i)) =
          some (emitFinding (rustLines content) file_path p i)
      rw [hsup sup hs]
      simp
  refine ⟨?_, rfl, rfl⟩
  unfold scan
  rw [List.mem_flatten]
  refine ⟨(List.range (rustLines content).length).filterMap
      (scanLineHit (rustLines content) file_path p),
    List.mem_map_of_mem _ hp, ?_⟩
  exact List.mem_filterMap.mpr ⟨i, List.mem_range.mpr hi, hemit⟩

/-- Witness for `regex_scan_emits` on the nine-line file, matching at line
index 4. -/
theorem regex_scan_emits_witness :
    emitFinding (rustLines c8content) (strOf "f.rs") c8pattern 4 ∈
      scan [c8pattern] c8content (strOf "f.rs") ∧
    (emitFinding (rustLines c8content) (strOf "f.rs") c8pattern 4).line_number = 5 := by
  have h := regex_scan_emits [c8pattern] c8content (strOf "f.rs") c8pattern 4
    (List.mem_singleton.mpr rfl) (by decide) (by decide) (by decide)
    (by intro sup hs; simp [c8pattern] at hs)
  exact ⟨h.1, h.2.1⟩

-- ## `src/security/agent_tools.rs`: repo-scoped tools (C3)

/-- Absolute filesystem paths as component lists. -/
abbrev PathC := List Str

/-- `serde_json::Value` field access `input["key"].as_str()`: indexing a
non-object (or a missing key) yields `Null`, whose `as_str` is `None`. -/
def Json.strField (j : Json) (k : Str) : Option Str :=
  match j with
  | .obj fields =>
    match fields.lookup k with
    | some (.str s) => some s
    | _ => none
  | _ => none

/-- `input["key"].as_u64()` (for the integer-only JSON model: defined on
non-negative numbers). -/
def Json.natField (j : Json) (k : Str) : Option Nat :=
  match j with
  | .obj fields =>
    match fields.lookup k with
    | some (.num n) => if 0 ≤ n then some n.toNat else none
    | _ => none
  | _ => none

/-- `Json::is_object`. -/
def Json.isObj : Json → Bool
  | .obj _ => true
  | _ => false

/-- The filesystem oracle behind the agent tools.  `canonicalize` models
`Path::canonicalize` (failing with `none` for missing files); `walk p`
models a non-link-following `WalkDir` rooted at `p`, yielding entries as
component suffixes relative to `p` (`[]` is the root entry itself) — such a
walk only ever yields paths below its root. -/
structure Fs where
  canonicalize : PathC → Option PathC
  isDir : PathC → Bool
  isFile : PathC → Bool
  readToString : PathC → Option Str
  walk : PathC → List (List Str)

/-- Components of a user-supplied relative path (`Path::join` followed by
component iteration; empty segments collapse). -/
def splitPath (s : Str) : List Str := (splitOnChar '/' s).filter (· ≠ [])

/-- Embedding of `agent_tools.rs::safe_resolve` (lines 119-141): normalize
separators, strip leading `/`, reject `..`, canonicalize root and resolved
path, and require the canonical path to start with the canonical root. -/
def safe_resolve (fs : Fs) (repo_root : PathC) (user_path : Str) :
    Except Str PathC :=
  let cleaned := (user_path.map (fun c => if c = '\\' then '/' else c)).dropWhile (· = '/')
  if containsSub (strOf "..") cleaned then
    .error (strOf "Path traversal (..) is not allowed")
  else
    let resolved := repo_root ++ splitPath cleaned
    match fs.canonicalize repo_root with
    | none => .error (strOf "Cannot resolve repo root")
    | some canonical_root =>
      match fs.canonicalize resolved with
      | none => .error (strOf "Cannot resolve path: " ++ user_path)
      | some canonical =>
        if canonical_root.IsPrefix canonical then .ok canonical
        else .error (strOf "Path resolves outside repository")

/-- `Path::strip_prefix` (component-based). -/
def stripPrefixP (pre p : PathC) : Option PathC :=
  if pre.IsPrefix p then some (p.drop pre.length) else none

/-- Render a path from components (Rust `Path::display` for the relative
paths the tools print). -/
def joinPath : PathC → Str
  | [] => []
  | [c] => c
  | c :: cs => c ++ '/' :: joinPath cs

/-- Byte-lexicographic string order (Rust `String` ordering). -/
def strLe : Str → Str → Bool
  | [], _ => true
  | _ :: _, [] => false
  | a :: xs, b :: ys =>
    if a.val < b.val then true
    else if b.val < a.val then false
    else strLe xs ys

/-- Insertion into a sorted list. -/
def insertSorted (x : Str) : List Str → List Str
  | [] => [x]
  | y :: ys => if strLe x y then x :: y :: ys else y :: insertSorted x ys

/-- `Vec::sort` on strings. -/
def sortStr (l : List Str) : List Str := l.foldr insertSorted []

/-- `Path::extension` of the last component (simplified: text after the
last dot, none when the dot is leading or absent). -/
def extOf (p : PathC) : Option Str :=
  match p.getLast? with
  | none => none
  | some nm =>
    match rfindChar '.' nm with
    | some i => if i = 0 then none else some (nm.drop (i + 1))
    | none => none

/-- The listing built by `agent_tools.rs::handle_list_files` once the
directory is resolved (lines 166-203): walk, skip hidden and `target/`
entries, make paths repo-relative, apply the glob-suffix filter, sort,
join, truncate. -/
def list_files_body (fs : Fs) (repo_root dir : PathC) (pattern : Option Str) :
    Str × Bool :=
  let suffixes := fs.walk dir
  let entries := suffixes.filterMap (fun suf =>
    let ep := dir ++ suf
    let hidden : Bool :=
      match ep.getLast? with
      | some nm => decide (nm.head? = some '.') || decide (nm = strOf "target")
      | none => false
    if hidden && decide (ep ≠ dir) then none
    else
      match stripPrefixP repo_root ep with
      | none => none
      | some rel =>
        let rel_str := joinPath rel
        let patOk : Bool :=
          match pattern with
          | some pat => decide ((pat.dropWhile (· = '*')).IsSuffix rel_str)
          | none => true
        if patOk = false then none
        else some (rel_str ++ (if fs.isDir ep then strOf "/" else [])))
  let entries := sortStr entries
  if entries = [] then (strOf "No files found", false)
  else (truncate (joinNL entries), false)

/-- Embedding of `agent_tools.rs::handle_list_files` (lines 153-204).  The
second component of the result is the instrumentation of this model: the
absolute paths the handler touches on the filesystem (the resolved
directory and every walk entry below it). -/
def handle_list_files (fs : Fs) (repo_root : PathC) (input : Json) :
    (Str × Bool) × List PathC :=
  match safe_resolve fs repo_root ((input.strField (strOf "path")).getD (strOf ".")) with
  | .error e => ((e, true), [])
  | .ok dir =>
    if fs.isDir dir = false then
      ((strOf "Not a directory: " ++ (input.strField (strOf "path")).getD (strOf "."),
        true), [dir])
    else (list_files_body fs repo_root dir (input.strField (strOf "pattern")),
          dir :: (fs.walk dir).map (fun suf => dir ++ suf))

/-- The numbered-content result of `agent_tools.rs::handle_read_file` once
the file is resolved (lines 219-248).  (Rust would panic when
`end_line < start_line`; no claim settled here exercises that corner,
which this model renders as an empty slice.) -/
def read_file_body (fs : Fs) (path : Str) (file : PathC)
    (start? end? : Option Nat) : Str × Bool :=
  if fs.isFile file = false then (strOf "Not a file: " ++ path, true)
  else
    match fs.readToString file with
    | none => (strOf "Cannot read file", true)
    | some content =>
      let lines := rustLines content
      let start_idx := (start?.getD 1) - 1
      let end_idx := min (end?.getD lines.length) lines.length
      if lines.length ≤ start_idx then
        (strOf "Start line " ++ natToStr start_idx ++
          strOf " exceeds file length " ++ natToStr lines.length, true)
      else
        (truncate (joinNL (((lines.drop start_idx).take (end_idx - start_idx)).enum.map
          (fun q => pad4 (start_idx + q.1 + 1) ++ strOf " | " ++ q.2))), false)

/-- Embedding of `agent_tools.rs::handle_read_file` (lines 206-249). -/
def handle_read_file (fs : Fs) (repo_root : PathC) (input : Json) :
    (Str × Bool) × List PathC :=
  match input.strField (strOf "path") with
  | none => ((strOf "Missing 'path' parameter", true), [])
  | some path =>
    match safe_resolve fs repo_root path with
    | .error e => ((e, true), [])
    | .ok file =>
      (read_file_body fs path file (input.natField (strOf "start_line"))
        (input.natField (strOf "end_line")), [file])

/-- Embedding of `agent_tools.rs::handle_search_code` (lines 251-321): walk
the repo root, filter cache directories and extensions, report up to 50
matching lines with a total count. -/
def search_code_body (fs : Fs) (repo_root : PathC) (pattern : Str)
    (file_ext : Option Str) : Str × Bool :=
  let step := fun (acc : List Str × Nat) (suf : List Str) =>
    let ep := repo_root ++ suf
    if fs.isFile ep = false then acc
    else
      let path_str := joinPath ep
      if containsSub (strOf "/target/") path_str ||
          containsSub (strOf "/.git/") path_str ||
          containsSub (strOf "/node_modules/") path_str then acc
      else
        let extOk : Bool :=
          match file_ext with
          | some ext => decide (extOf ep = some ext)
          | none => true
        if extOk = false then acc
        else
          match fs.readToString ep with
          | none => acc
          | some content =>
            let rel := (stripPrefixP repo_root ep).getD ep
            (rustLines content).enum.foldl (fun acc2 q =>
              if containsSub pattern q.2 then
                ((if acc2.1.length < 50 then
                    acc2.1 ++ [joinPath rel ++ ':' :: natToStr (q.1 + 1) ++
                      ':' :: ' ' :: trimStr q.2]
                  else acc2.1), acc2.2 + 1)
              else acc2) acc
  let results := (fs.walk repo_root).foldl step ([], 0)
  if results.1 = [] then
    (strOf "No matches for '" ++ pattern ++ strOf "'", false)
  else
    let header :=
      if 50 < results.2 then
        strOf "Found " ++ natToStr results.2 ++ strOf " matches (showing first 50):\n"
      else strOf "Found " ++ natToStr results.2 ++ strOf " matches:\n"
    (truncate (header ++ joinNL results.1), false)

/-- Embedding of `agent_tools.rs::handle_search_code` (lines 251-321); the
walk is rooted at the repo root itself, so every touched path extends it. -/
def handle_search_code (fs : Fs) (repo_root : PathC) (input : Json) :
    (Str × Bool) × List PathC :=
  match input.strField (strOf "pattern") with
  | none => ((strOf "Missing 'pattern' parameter", true), [])
  | some pattern =>
    (search_code_body fs repo_root pattern (input.strField (strOf "file_pattern")),
     (fs.walk repo_root).map (fun suf => repo_root ++ suf))

/-- The structural line starts of `agent_tools.rs::handle_get_file_structure`
(lines 359-378). -/
def structuralStarts : List Str :=
  [strOf "pub fn ", strOf "fn ", strOf "pub struct ", strOf "struct ",
   strOf "pub enum ", strOf "enum ", strOf "pub trait ", strOf "trait ",
   strOf "impl ", strOf "pub mod ", strOf "mod ", strOf "pub type ",
   strOf "type ", strOf "pub const ", strOf "const ", strOf "pub static ",
   strOf "static ", strOf "#[derive", strOf "pub use ", strOf "use "]

/-- The outline built by `agent_tools.rs::handle_get_file_structure` once
the file is resolved (lines 334-395): line-based structural extraction
with `[documented]` flags. -/
def file_structure_body (fs : Fs) (path : Str) (file : PathC) : Str × Bool :=
  if fs.isFile file = false then (strOf "Not a file: " ++ path, true)
  else
    match fs.readToString file with
    | none => (strOf "Cannot read file", true)
    | some content =>
      let step := fun (acc : List Str × Bool) (q : Nat × Str) =>
        let trimmed := trimStr q.2
        if (strOf "///").isPrefixOf trimmed || (strOf "//!").isPrefixOf trimmed then
          (acc.1, true)
        else
          let is_structural := structuralStarts.any (fun pre => pre.isPrefixOf trimmed)
          let outline :=
            if is_structural then
              acc.1 ++ [pad4 (q.1 + 1) ++ strOf " | " ++ trimmed ++
                (if acc.2 then strOf " [documented]" else [])]
            else acc.1
          let in_doc :=
            if trimmed ≠ [] ∧ ¬ (strOf "//").isPrefixOf trimmed then false else acc.2
          (outline, in_doc)
      let outline := ((rustLines content).enum.foldl step ([], false)).1
      if outline = [] then (strOf "No structural items found", false)
      else (truncate (joinNL outline), false)

/-- Embedding of `agent_tools.rs::handle_get_file_structure`
(lines 323-396). -/
def handle_get_file_structure (fs : Fs) (repo_root : PathC) (input : Json) :
    (Str × Bool) × List PathC :=
  match input.strField (strOf "path") with
  | none => ((strOf "Missing 'path' parameter", true), [])
  | some path =>
    match safe_resolve fs repo_root path with
    | .error e => ((e, true), [])
    | .ok file => (file_structure_body fs path file, [file])

/-- Embedding of `agent_tools.rs::dispatch` (lines 108-116). -/
def dispatch (fs : Fs) (repo_root : PathC) (tool_name : Str) (input : Json) :
    (Str × Bool) × List PathC :=
  if tool_name = strOf "list_files" then handle_list_files fs repo_root input
  else if tool_name = strOf "read_file" then handle_read_file fs repo_root input
  else if tool_name = strOf "search_code" then handle_search_code fs repo_root input
  else if tool_name = strOf "get_file_structure" then
    handle_get_file_structure fs repo_root input
  else ((strOf "Unknown tool: " ++ tool_name, true), [])

-- Facts about path cleaning and `safe_resolve`.

theorem mem_of_getElem?_some {α : Type} {l : List α} {i : Nat} {a : α}
    (h : l[i]? = some a) : a ∈ l := by
  obtain ⟨hlt, rfl⟩ := List.getElem?_eq_some.mp h
  exact List.getElem_mem ..

theorem containsSub_map_slash {h : Str}
    (hc : containsSub (strOf "..") h = true) :
    containsSub (strOf "..")
      (h.map (fun c => if c = '\\' then '/' else c)) = true := by
  obtain ⟨i, hocc⟩ := exists_occursAt_of_containsSub hc
  apply containsSub_of_occursAt (i := i)
  unfold occursAt at hocc ⊢
  rw [← List.map_drop]
  have hfix : strOf ".." =
      (strOf "..").map (fun c => if c = '\\' then '/' else c) := by decide
  rw [hfix]
  exact hocc.map _

theorem containsSub_dropWhile_slash {h : Str}
    (hc : containsSub (strOf "..") h = true) :
    containsSub (strOf "..") (h.dropWhile (· = '/')) = true := by
  obtain ⟨i, hocc⟩ := exists_occursAt_of_containsSub hc
  have hdot : h[i]? = some '.' := by
    have := occursAt_getElem hocc (k := 0) (by decide)
    simpa using this
  have hsplit : h.takeWhile (· = '/') ++ h.dropWhile (· = '/') = h :=
    List.takeWhile_append_dropWhile ..
  by_cases hlt : i < (h.takeWhile (· = '/')).length
  · exfalso
    have htk : (h.takeWhile (· = '/'))[i]? = some '.' := by
      rw [← hsplit] at hdot
      rwa [List.getElem?_append_left hlt] at hdot
    have := List.mem_takeWhile_imp (mem_of_getElem?_some htk)
    simp at this
  · push_neg at hlt
    apply containsSub_of_occursAt (i := i - (h.takeWhile (· = '/')).length)
    unfold occursAt at hocc ⊢
    have hij : i = (h.takeWhile (· = '/')).length +
        (i - (h.takeWhile (· = '/')).length) := by omega
    have hdrop : h.drop i =
        (h.dropWhile (· = '/')).drop (i - (h.takeWhile (· = '/')).length) := by
      conv_lhs => rw [← hsplit, hij]
      exact List.drop_append _
    rw [← hdrop]
    exact hocc

/-- If the user path contains `..`, `safe_resolve` rejects it — for every
filesystem oracle, i.e. without consulting the filesystem at all. -/
theorem safe_resolve_rejects_dotdot (fs : Fs) (repo_root : PathC) {p : Str}
    (hc : containsSub (strOf "..") p = true) :
    safe_resolve fs repo_root p =
      .error (strOf "Path traversal (..) is not allowed") := by
  simp [safe_resolve, containsSub_dropWhile_slash (containsSub_map_slash hc)]

/-- Whenever `safe_resolve` succeeds, the returned canonical path starts
with the canonicalized repo root. -/
theorem safe_resolve_within_root {fs : Fs} {repo_root : PathC} {p : Str}
    {c : PathC} (h : safe_resolve fs repo_root p = .ok c) :
    ∃ cr, fs.canonicalize repo_root = some cr ∧ cr.IsPrefix c := by
  simp only [safe_resolve] at h
  split at h
  · simp at h
  · split at h
    · simp at h
    · rename_i cr hcr
      split at h
      · simp at h
      · rename_i cc hcc
        split at h
        · rename_i hpre
          injection h with h
          exact ⟨cr, hcr, h ▸ hpre⟩
        · simp at h

-- Per-handler instrumentation lemmas: every filesystem path a handler
-- touches lies below the canonicalized repo root (path-taking tools) or
-- below the repo root itself (`search_code`).

theorem handle_read_file_access (fs : Fs) (root : PathC) (input : Json) :
    ∀ q ∈ (handle_read_file fs root input).2,
      ∃ cr, fs.canonicalize root = some cr ∧ cr.IsPrefix q := by
  intro q hq
  unfold handle_read_file at hq
  split at hq
  · simp at hq
  · rename_i path _
    cases hsr : safe_resolve fs root path with
    | error e => rw [hsr] at hq; simp at hq
    | ok file =>
      rw [hsr] at hq
      simp only [List.mem_singleton] at hq
      subst hq
      exact safe_resolve_within_root hsr

theorem handle_get_file_structure_access (fs : Fs) (root : PathC) (input : Json) :
    ∀ q ∈ (handle_get_file_structure fs root input).2,
      ∃ cr, fs.canonicalize root = some cr ∧ cr.IsPrefix q := by
  intro q hq
  unfold handle_get_file_structure at hq
  split at hq
  · simp at hq
  · rename_i path _
    cases hsr : safe_resolve fs root path with
    | error e => rw [hsr] at hq; simp at hq
    | ok file =>
      rw [hsr] at hq
      simp only [List.mem_singleton] at hq
      subst hq
      exact safe_resolve_within_root hsr

theorem handle_list_files_access (fs : Fs) (root : PathC) (input : Json) :
    ∀ q ∈ (handle_list_files fs root input).2,
      ∃ cr, fs.canonicalize root = some cr ∧ cr.IsPrefix q := by
  intro q hq
  unfold handle_list_files at hq
  cases hsr : safe_resolve fs root ((input.strField (strOf "path")).getD (strOf ".")) with
  | error e => rw [hsr] at hq; simp at hq
  | ok dir =>
    rw [hsr] at hq
    obtain ⟨cr, hcr, hpre⟩ := safe_resolve_within_root hsr
    split at hq
    · simp at hq
    · rename_i dir2 heq
      injection heq with heq2
      subst heq2
      split at hq
      · simp only [List.mem_singleton] at hq
        subst hq
        exact ⟨cr, hcr, hpre⟩
      · simp only [List.mem_cons] at hq
        rcases hq with hq' | hq'
        · subst hq'; exact ⟨cr, hcr, hpre⟩
        · obtain ⟨suf, _, rfl⟩ := List.mem_map.mp hq'
          exact ⟨cr, hcr, hpre.trans (List.prefix_append _ suf)⟩

theorem handle_search_code_access (fs : Fs) (root : PathC) (input : Json) :
    ∀ q ∈ (handle_search_code fs root input).2, root.IsPrefix q := by
  intro q hq
  unfold handle_search_code at hq
  split at hq
  · simp at hq
  · obtain ⟨suf, _, rfl⟩ := List.mem_map.mp hq
    exact List.prefix_append root suf

-- The ".." rejection per path-taking handler, independent of the
-- filesystem oracle.

theorem handle_read_file_dotdot (fs : Fs) (root : PathC) (input : Json)
    {path : Str} (hpath : input.strField (strOf "path") = some path)
    (hdd : containsSub (strOf "..") path = true) :
    handle_read_file fs root input =
      ((strOf "Path traversal (..) is not allowed", true), []) := by
  simp [handle_read_file, hpath, safe_resolve_rejects_dotdot fs root hdd]

theorem handle_get_file_structure_dotdot (fs : Fs) (root : PathC) (input : Json)
    {path : Str} (hpath : input.strField (strOf "path") = some path)
    (hdd : containsSub (strOf "..") path = true) :
    handle_get_file_structure fs root input =
      ((strOf "Path traversal (..) is not allowed", true), []) := by
  simp [handle_get_file_structure, hpath, safe_resolve_rejects_dotdot fs root hdd]

theorem handle_list_files_dotdot (fs : Fs) (root : PathC) (input : Json)
    {path : Str} (hpath : input.strField (strOf "path") = some path)
    (hdd : containsSub (strOf "..") path = true) :
    handle_list_files fs root input =
      ((strOf "Path traversal (..) is not allowed", true), []) := by
  simp [handle_list_files, hpath, safe_resolve_rejects_dotdot fs root hdd]

/-- C3: (1) a user-supplied path containing `..` makes each path-taking
tool return an error result (`is_error = true`) with the same outcome for
*every* filesystem oracle and an empty touched-path log — the filesystem
target is never consulted; (2) whenever `safe_resolve` succeeds, the
returned canonical path starts with the canonicalized repo root; (3) every
filesystem path any of the four tools touches lies below the canonicalized
repo root or below the repo root itself. -/
theorem agent_tools_path_safety :
    (∀ (fs fs' : Fs) (root : PathC) (tool : Str) (input : Json) (path : Str),
      input.strField (strOf "path") = some path →
      containsSub (strOf "..") path = true →
      (tool = strOf "list_files" ∨ tool = strOf "read_file" ∨
        tool = strOf "get_file_structure") →
      dispatch fs root tool input = dispatch fs' root tool input ∧
      (dispatch fs root tool input).1.2 = true ∧
      (dispatch fs root tool input).2 = []) ∧
    (∀ (fs : Fs) (root : PathC) (p : Str) (c : PathC),
      safe_resolve fs root p = .ok c →
      ∃ cr, fs.canonicalize root = some cr ∧ cr.IsPrefix c) ∧
    (∀ (fs : Fs) (root : PathC) (tool : Str) (input : Json),
      ∀ q ∈ (dispatch fs root tool input).2,
        (∃ cr, fs.canonicalize root = some cr ∧ cr.IsPrefix q) ∨
        root.IsPrefix q) := by
  refine ⟨?_, fun _ _ _ _ h => safe_resolve_within_root h, ?_⟩
  · intro fs fs' root tool input path hpath hdd htool
    rcases htool with rfl | rfl | rfl
    · have hd : ∀ g : Fs, dispatch g root (strOf "list_files") input =
          handle_list_files g root input := by
        intro g; unfold dispatch; rw [if_pos rfl]
      rw [hd fs, hd fs', handle_list_files_dotdot fs root input hpath hdd,
        handle_list_files_dotdot fs' root input hpath hdd]
      exact ⟨rfl, rfl, rfl⟩
    · have hd : ∀ g : Fs, dispatch g root (strOf "read_file") input =
          handle_read_file g root input := by
        intro g; unfold dispatch; rw [if_neg (by decide), if_pos rfl]
      rw [hd fs, hd fs', handle_read_file_dotdot fs root input hpath hdd,
        handle_read_file_dotdot fs' root input hpath hdd]
      exact ⟨rfl, rfl, rfl⟩
    · have hd : ∀ g : Fs, dispatch g root (strOf "get_file_structure") input =
          handle_get_file_structure g root input := by
        intro g; unfold dispatch
        rw [if_neg (by decide), if_neg (by decide), if_neg (by decide), if_pos rfl]
      rw [hd fs, hd fs', handle_get_file_structure_dotdot fs root input hpath hdd,
        handle_get_file_structure_dotdot fs' root input hpath hdd]
      exact ⟨rfl, rfl, rfl⟩
  · intro fs root tool input q hq
    unfold dispatch at hq
    split_ifs at hq
    · exact Or.inl (handle_list_files_access fs root input q hq)
    · exact Or.inl (handle_read_file_access fs root input q hq)
    · exact Or.inr (handle_search_code_access fs root input q hq)
    · exact Or.inl (handle_get_file_structure_access fs root input q hq)
    · simp at hq

-- Concrete inputs for the C3 witness.

/-- A filesystem oracle on which everything fails. -/
def c3fsA : Fs := ⟨fun _ => none, fun _ => false, fun _ => false,
  fun _ => none, fun _ => []⟩

/-- A permissive filesystem oracle. -/
def c3fsB : Fs := ⟨fun p => some p, fun _ => true, fun _ => true,
  fun _ => some [], fun _ => [[strOf "x"]]⟩

/-- A `read_file` input whose path attempts traversal. -/
def c3input : Json := Json.obj [(strOf "path", Json.str (strOf "../etc"))]

/-- Witness for `agent_tools_path_safety`: the traversal request gets the
same error on two very different filesystems and touches nothing. -/
theorem agent_tools_path_safety_witness :
    dispatch c3fsA [strOf "repo"] (strOf "read_file") c3input =
      dispatch c3fsB [strOf "repo"] (strOf "read_file") c3input ∧
    (dispatch c3fsA [strOf "repo"] (strOf "read_file") c3input).1.2 = true ∧
    (dispatch c3fsA [strOf "repo"] (strOf "read_file") c3input).2 = [] :=
  agent_tools_path_safety.1 c3fsA c3fsB [strOf "repo"] (strOf "read_file")
    c3input (strOf "../etc") (by decide) (by decide)
    (Or.inr (Or.inl rfl))

-- ## `src/llm.rs` conversation types (C2, C6)

/-- Embedding of `llm.rs::Role`. -/
inductive Role where
  | User : Role
  | Assistant : Role
deriving Repr, DecidableEq

/-- Embedding of `llm.rs::StopReason`. -/
inductive StopReason where
  | EndTurn : StopReason
  | ToolUse : StopReason
  | MaxTokens : StopReason
deriving Repr, DecidableEq

/-- Embedding of `llm.rs::ContentBlock`. -/
inductive ContentBlock where
  | Text (text : Str) : ContentBlock
  | ToolUse (id name : Str) (input : Json) : ContentBlock
  | ToolResult (tool_use_id : Str) (content : Str) (is_error : Bool) : ContentBlock
deriving Repr

/-- Embedding of `llm.rs::ConversationMessage`. -/
structure ConversationMessage where
  role : Role
  content : List ContentBlock
deriving Repr

/-- Embedding of `llm.rs::ConversationResponse`. -/
structure ConversationResponse where
  content : List ContentBlock
  stop_reason : StopReason
  usage : Usage
deriving Repr

/-- Embedding of `agent_review.rs::AgentFinding`. -/
structure AgentFinding where
  title : Str
  severity : Str
  description : Str
  evidence : List Str
  attack_scenario : Str
  remediation : Str
  confidence : ℚ
  affected_files : List Str
deriving Repr, DecidableEq

/-- Embedding of `validator.rs::VerdictEntry`. -/
structure VerdictEntry where
  title : Str
  verdict : Str
  reasoning : Str
deriving Repr, DecidableEq

/-- Embedding of `validator.rs::Verdict`. -/
inductive Verdict where
  | Confirmed : Verdict
  | Disputed : Verdict
  | Dismissed : Verdict
deriving Repr, DecidableEq

/-- Embedding of `validator.rs::parse_verdict` (lines 454-460). -/
def parse_verdict (s : Str) : Verdict :=
  if toLowerStr s = strOf "confirmed" then .Confirmed
  else if toLowerStr s = strOf "dismissed" then .Dismissed
  else .Disputed

/-- Embedding of `validator.rs::downgrade_severity` (lines 445-452). -/
def downgrade_severity (severity : Str) : Str :=
  if severity = strOf "Critical" then strOf "High"
  else if severity = strOf "High" then strOf "Medium"
  else if severity = strOf "Medium" then strOf "Low"
  else strOf "Info"

/-- The fence-handling parse cascade shared verbatim by
`agent_review.rs::try_parse_findings` (lines 476-512) and
`validator.rs::try_parse_verdicts` (lines 482-518), over the external
`serde_json` array parse `pj`.  In the bare-array branch Rust slices
`text[start..=end]`, which panics when the last `']'` precedes the first
`'['` by more than one position; no claim settled here exercises that
corner, which this model renders as a failed parse. -/
def fenceParse {α : Type} (pj : Str → Option (List α)) (text : Str) :
    Option (List α) :=
  let b3 : Option (List α) :=
    match findChar '[' text, rfindChar ']' text with
    | some s, some e =>
      if s ≤ e + 1 then pj ((text.drop s).take (e + 1 - s)) else none
    | _, _ => none
  let b2 : Option (List α) :=
    match findSub (strOf "```") text with
    | some s =>
      let content := text.drop (s + 3)
      match findSub (strOf "```") content with
      | some e =>
        let inner := trimStr (content.take e)
        if inner.head? = some '[' then
          match pj inner with
          | some r => some r
          | none => b3
        else b3
      | none => b3
    | none => b3
  match findSub (strOf "```json") text with
  | some s =>
    let content := text.drop (s + 7)
    match findSub (strOf "```") content with
    | some e =>
      (match pj (trimStr (content.take e)) with
       | some r => some r
       | none => b2)
    | none => b2
  | none => b2

/-- The tool-use blocks of a response (`agent_review.rs` lines 279-288,
`validator.rs` lines 337-346). -/
def toolUsesOf (content : List ContentBlock) : List (Str × Str × Json) :=
  content.filterMap (fun b =>
    match b with
    | .ToolUse id nm inp => some (id, nm, inp)
    | _ => none)

/-- Embedding of `agent_review.rs::extract_findings` (lines 456-473):
search assistant messages from most recent backward, scanning their text
blocks for a parsable findings array. -/
def extract_findings (pj : Str → Option (List AgentFinding))
    (messages : List ConversationMessage) : List AgentFinding :=
  (messages.reverse.findSome? (fun msg =>
    if msg.role = Role.Assistant then
      msg.content.findSome? (fun b =>
        match b with
        | .Text t => fenceParse pj t
        | _ => none)
    else none)).getD []

/-- Embedding of `validator.rs::extract_verdicts` (lines 463-479). -/
def extract_verdicts (pv : Str → Option (List VerdictEntry))
    (messages : List ConversationMessage) : List VerdictEntry :=
  (messages.reverse.findSome? (fun msg =>
    if msg.role = Role.Assistant then
      msg.content.findSome? (fun b =>
        match b with
        | .Text t => fenceParse pv t
        | _ => none)
    else none)).getD []

/-- Embedding of `config.rs::AgentReviewConfig` (the fields the loops
read). -/
structure AgentReviewConfig where
  max_turns : Nat
  max_tokens : Nat
  cost_limit_usd : ℚ
deriving Repr

/-- Oracles for the effectful collaborators of the validator and
investigator loops: `converse k` is the outcome of the (k+1)-st LLM call
of the run; `dispatchTool` abstracts `agent_tools::dispatch` (filesystem
access); `parseVerdicts` and `parseFindings` abstract
`serde_json::from_str` on the respective array types; `hashInput`
abstracts `DefaultHasher` applied to `input.to_string()`. -/
structure LoopOracle where
  converse : Nat → Except Str ConversationResponse
  dispatchTool : Str → Json → Str × Bool
  parseVerdicts : Str → Option (List VerdictEntry)
  parseFindings : Str → Option (List AgentFinding)
  hashInput : Json → Nat

-- ## `src/security/validator.rs`: validate_findings (C2)

/-- The conversation loop of `validator.rs::validate_findings`
(lines 305-373), with `fuel = max_turns - turns` (every non-breaking
iteration increments `turns`).  The components of the result are the
message list, turn count, accumulated cost, and converse-invocation
count; a first-turn converse failure is the only error exit. -/
def valLoop (O : LoopOracle) (model : Str) (cfg : AgentReviewConfig) :
    Nat → List ConversationMessage → Nat → ℚ → Nat →
    Except Str (List ConversationMessage × Nat × ℚ × Nat)
  | 0, msgs, turns, cost, calls => .ok (msgs, turns, cost, calls)
  | fuel + 1, msgs, turns, cost, calls =>
    if cfg.cost_limit_usd ≤ cost then .ok (msgs, turns, cost, calls)
    else
      match O.converse calls with
      | .error e => if 0 < turns then .ok (msgs, turns, cost, calls + 1) else .error e
      | .ok r =>
        let turns' := turns + 1
        let cost' := cost + estimate_cost_usd r.usage model
        let tool_uses := toolUsesOf r.content
        let msgs' := msgs ++ [⟨Role.Assistant, r.content⟩]
        if r.stop_reason = StopReason.EndTurn ∨ tool_uses.isEmpty = true then
          .ok (msgs', turns', cost', calls + 1)
        else
          let results := tool_uses.map (fun u =>
            ContentBlock.ToolResult u.1 (O.dispatchTool u.2.1 u.2.2).1
              (O.dispatchTool u.2.1 u.2.2).2)
          valLoop O model cfg fuel (msgs' ++ [⟨Role.User, results⟩])
            turns' cost' (calls + 1)

/-- The verdict-matching annotation of `validator.rs::validate_findings`
(lines 402-423): match by case-insensitive mutual title containment,
defaulting to Disputed. -/
def annotateFinding (verdicts : List VerdictEntry) (f : SecurityFinding) :
    SecurityFinding :=
  match verdicts.find? (fun v =>
      containsSub (toLowerStr v.title) (toLowerStr f.title) ||
      containsSub (toLowerStr f.title) (toLowerStr v.title)) with
  | some v =>
    { f with
      validation_status :=
        match parse_verdict v.verdict with
        | .Confirmed => ValidationStatus.Confirmed
        | .Disputed => ValidationStatus.Disputed
        | .Dismissed => ValidationStatus.Dismissed,
      validation_reasoning := some v.reasoning }
  | none =>
    { f with
      validation_status := ValidationStatus.Disputed,
      validation_reasoning := some (strOf "No verdict provided by validator") }

/-- The post-processing of `validator.rs::validate_findings`
(lines 401-433): annotate every finding, drop the Dismissed ones, and
downgrade the severity of the Disputed ones by one step. -/
def postProcess (verdicts : List VerdictEntry)
    (findings : List SecurityFinding) : List SecurityFinding :=
  ((findings.map (annotateFinding verdicts)).filter
      (fun f => f.validation_status ≠ ValidationStatus.Dismissed)).map
    (fun f =>
      if f.validation_status = ValidationStatus.Disputed then
        { f with severity := downgrade_severity f.severity }
      else f)

/-- The forced-summary prompt of `validator.rs` (lines 383-386). -/
def forcedVerdictText : Str :=
  strOf "You have run out of investigation turns. Based on everything you have read so far, produce your final verdicts NOW as a JSON array. Each entry must have: title, verdict (Confirmed|Disputed|Dismissed), reasoning."

/-- Embedding of `validator.rs::validate_findings` (lines 259-443).  The
initial user-message text (built in the source from the findings'
`serde_json` serialization, lines 277-295) is passed in as `initialText`;
the function returns the post-processed finding list that the source
leaves in the `&mut Vec` on `Ok(())`. -/
def validate_findings (O : LoopOracle) (model initialText : Str)
    (findings : List SecurityFinding) (cfg : AgentReviewConfig) :
    Except Str (List SecurityFinding) :=
  if findings = [] then .ok findings
  else
    match valLoop O model cfg (min cfg.max_turns 15)
        [⟨Role.User, [ContentBlock.Text initialText]⟩] 0 0 0 with
    | .error e => .error e
    | .ok (msgs, _, _, calls) =>
      let verdicts := extract_verdicts O.parseVerdicts msgs
      let verdicts :=
        if verdicts = [] then
          match O.converse calls with
          | .ok r =>
            extract_verdicts O.parseVerdicts
              ((msgs ++ [⟨Role.User, [ContentBlock.Text forcedVerdictText]⟩]) ++
               [⟨Role.Assistant, r.content⟩])
          | .error _ => verdicts
        else verdicts
      .ok (postProcess verdicts findings)

theorem annotateFinding_title (v : List VerdictEntry) (f : SecurityFinding) :
    (annotateFinding v f).title = f.title := by
  unfold annotateFinding; split <;> rfl

theorem annotateFinding_severity (v : List VerdictEntry) (f : SecurityFinding) :
    (annotateFinding v f).severity = f.severity := by
  unfold annotateFinding; split <;> rfl

theorem postProcess_no_dismissed (v : List VerdictEntry)
    (fs : List SecurityFinding) :
    ∀ f ∈ postProcess v fs,
      f.validation_status ≠ ValidationStatus.Dismissed := by
  intro f hf
  unfold postProcess at hf
  obtain ⟨g, hg, rfl⟩ := List.mem_map.mp hf
  obtain ⟨_, hgs⟩ := List.mem_filter.mp hg
  have hne : g.validation_status ≠ ValidationStatus.Dismissed := by simpa using hgs
  split <;> exact hne

theorem postProcess_disputed (v : List VerdictEntry)
    (fs : List SecurityFinding) :
    ∀ f ∈ postProcess v fs,
      f.validation_status = ValidationStatus.Disputed →
      ∃ g ∈ fs, f.title = g.title ∧
        f.severity = downgrade_severity g.severity := by
  intro f hf hdisp
  unfold postProcess at hf
  obtain ⟨g, hg, rfl⟩ := List.mem_map.mp hf
  obtain ⟨hg2, _⟩ := List.mem_filter.mp hg
  obtain ⟨g0, hg0, rfl⟩ := List.mem_map.mp hg2
  by_cases hd : (annotateFinding v g0).validation_status = ValidationStatus.Disputed
  · refine ⟨g0, hg0, ?_, ?_⟩
    · rw [if_pos hd]
      exact annotateFinding_title v g0
    · rw [if_pos hd]
      show downgrade_severity (annotateFinding v g0).severity =
        downgrade_severity g0.severity
      rw [annotateFinding_severity]
  · rw [if_neg hd] at hdisp
    exact absurd hdisp hd

/-- C2: after `validate_findings` returns Ok, the emitted list contains no
finding with status Dismissed, and every Disputed finding (including
findings matched by no verdict entry, which default to Disputed) is an
input finding whose severity was downgraded exactly one step, by the map
Critical→High, High→Medium, Medium→Low, Low→Info, Info stays Info. -/
theorem validate_findings_post (O : LoopOracle) (model initialText : Str)
    (findings : List SecurityFinding) (cfg : AgentReviewConfig)
    (out : List SecurityFinding)
    (hok : validate_findings O model initialText findings cfg = .ok out) :
    (∀ f ∈ out, f.validation_status ≠ ValidationStatus.Dismissed) ∧
    (∀ f ∈ out, f.validation_status = ValidationStatus.Disputed →
      ∃ g ∈ findings, f.title = g.title ∧
        f.severity = downgrade_severity g.severity) ∧
    downgrade_severity (strOf "Critical") = strOf "High" ∧
    downgrade_severity (strOf "High") = strOf "Medium" ∧
    downgrade_severity (strOf "Medium") = strOf "Low" ∧
    downgrade_severity (strOf "Low") = strOf "Info" ∧
    downgrade_severity (strOf "Info") = strOf "Info" := by
  have hpp : ∃ v, out = postProcess v findings := by
    unfold validate_findings at hok
    split at hok
    · rename_i hempty
      injection hok with h2
      refine ⟨[], ?_⟩
      rw [← h2, hempty]
      rfl
    · split at hok
      · exact absurd hok (by simp)
      · injection hok with h2
        exact ⟨_, h2.symm⟩
  obtain ⟨v, rfl⟩ := hpp
  exact ⟨postProcess_no_dismissed v findings, postProcess_disputed v findings,
    by decide, by decide, by decide, by decide, by decide⟩

-- Concrete inputs for the C2 witness.

/-- A Critical finding that the validator dismisses. -/
def c2findingA : SecurityFinding :=
  ⟨strOf "Alpha", strOf "Critical", strOf "d", strOf "src/a.rs", 1, strOf "r",
   .Unvalidated, none⟩

/-- A High finding the validator never mentions (defaults to Disputed). -/
def c2findingB : SecurityFinding :=
  ⟨strOf "Beta", strOf "High", strOf "d", strOf "src/b.rs", 2, strOf "r",
   .Unvalidated, none⟩

/-- The verdict list the oracle's only reply parses to. -/
def c2verdicts : List VerdictEntry :=
  [⟨strOf "Alpha", strOf "Dismissed", strOf "bogus"⟩]

/-- An oracle whose single LLM reply ends the turn with the text `"[V]"`,
which parses to `c2verdicts`. -/
def c2oracle : LoopOracle :=
  ⟨fun _ => .ok ⟨[ContentBlock.Text (strOf "[V]")], StopReason.EndTurn, ⟨0, 0⟩⟩,
   fun _ _ => (strOf "", false),
   fun s => if s = strOf "[V]" then some c2verdicts else none,
   fun _ => none,
   fun _ => 0⟩

/-- The agent-review configuration of the C2 witness. -/
def c2cfg : AgentReviewConfig := ⟨5, 8192, 20⟩

/-- The output `validate_findings` produces on the witness inputs. -/
def c2out : List SecurityFinding :=
  [⟨strOf "Beta", strOf "Medium", strOf "d", strOf "src/b.rs", 2, strOf "r",
    .Disputed, some (strOf "No verdict provided by validator")⟩]

/-- Witness for `validate_findings_post`: the dismissed finding is gone
and the unmentioned one is Disputed with severity High→Medium. -/
theorem validate_findings_post_witness :
    (∀ f ∈ c2out, f.validation_status ≠ ValidationStatus.Dismissed) ∧
    (∀ f ∈ c2out, f.validation_status = ValidationStatus.Disputed →
      ∃ g ∈ [c2findingA, c2findingB], f.title = g.title ∧
        f.severity = downgrade_severity g.severity) := by
  have h := validate_findings_post c2oracle (strOf "m") (strOf "init")
    [c2findingA, c2findingB] c2cfg c2out rfl
  exact ⟨h.1, h.2.1⟩

-- ## `src/security/agent_review.rs`: the investigator loop (C6)

/-- Embedding of `agent_review.rs::ReviewStats`. -/
structure ReviewStats where
  turns : Nat
  total_input_tokens : Nat
  total_output_tokens : Nat
  total_cost_usd : ℚ
  tool_calls : Nat
deriving Repr, DecidableEq

/-- `ReviewStats::default()`. -/
def ReviewStats.defaultS : ReviewStats := ⟨0, 0, 0, 0, 0⟩

/-- Embedding of `ReviewStats::accumulate` (lines 61-66). -/
def ReviewStats.accumulate (s : ReviewStats) (usage : Usage) (model : Str) :
    ReviewStats :=
  { s with
    turns := s.turns + 1,
    total_input_tokens := s.total_input_tokens + usage.input_tokens,
    total_output_tokens := s.total_output_tokens + usage.output_tokens,
    total_cost_usd := s.total_cost_usd + estimate_cost_usd usage model }

/-- The stuck-loop nudge text (agent_review.rs line 325). -/
def stuckNudgeText : Str :=
  strOf "You have called the same tool with the same arguments multiple times. Try a different approach or provide your final findings."

/-- The malformed-input message (agent_review.rs line 346). -/
def invalidInputText : Str :=
  strOf "Invalid tool input: expected a JSON object with named parameters"

/-- The forced-summary prompt (agent_review.rs lines 386-390). -/
def forcedFindingsText : Str :=
  strOf "You have run out of investigation turns. Based on everything you have read so far, produce your final security findings NOW as a JSON array. Each finding must have: title, severity, description, evidence, attack_scenario, remediation, confidence, affected_files."

/-- The stuck-loop scan of `agent_review.rs::investigate` (lines 302-317):
push each `(name, hash(input))` pair and stop as soon as some pair has
occurred at least 3 times. -/
def stuckScan (hash : Json → Nat) :
    List (Str × Nat) → List (Str × Str × Json) → List (Str × Nat) × Bool
  | recent, [] => (recent, false)
  | recent, u :: rest =>
    let h := hash u.2.2
    let recent' := recent ++ [(u.2.1, h)]
    if 3 ≤ (recent'.filter (fun p => decide (p.1 = u.2.1) && decide (p.2 = h))).length then
      (recent', true)
    else stuckScan hash recent' rest

/-- The agent loop of `agent_review.rs::investigate` (lines 234-373), with
`fuel = max_turns - stats.turns` (every non-breaking iteration increments
`stats.turns` via `accumulate`).  The last component counts `converse`
invocations; a first-turn converse failure is the only error exit. -/
def agentLoop (O : LoopOracle) (model : Str) (cfg : AgentReviewConfig) :
    Nat → List ConversationMessage → ReviewStats → List (Str × Nat) → Nat →
    Except Str (List ConversationMessage × ReviewStats × Nat)
  | 0, msgs, stats, _, calls => .ok (msgs, stats, calls)
  | fuel + 1, msgs, stats, recent, calls =>
    if cfg.cost_limit_usd ≤ stats.total_cost_usd then .ok (msgs, stats, calls)
    else
      match O.converse calls with
      | .error e =>
        if 0 < stats.turns then .ok (msgs, stats, calls + 1) else .error e
      | .ok r =>
        let stats' := stats.accumulate r.usage model
        let tool_uses := toolUsesOf r.content
        let msgs' := msgs ++ [⟨Role.Assistant, r.content⟩]
        if r.stop_reason = StopReason.EndTurn ∨ tool_uses.isEmpty = true then
          .ok (msgs', stats', calls + 1)
        else
          let scan := stuckScan O.hashInput recent tool_uses
          if scan.2 then
            agentLoop O model cfg fuel
              (msgs' ++ [⟨Role.User, tool_uses.map (fun u =>
                ContentBlock.ToolResult u.1 stuckNudgeText false)⟩])
              stats' scan.1 (calls + 1)
          else
            let step := fun (acc : ReviewStats × List ContentBlock)
                (u : Str × Str × Json) =>
              let acc1 := { acc.1 with tool_calls := acc.1.tool_calls + 1 }
              if u.2.2.isObj = false then
                (acc1, acc.2 ++ [ContentBlock.ToolResult u.1 invalidInputText true])
              else
                (acc1, acc.2 ++ [ContentBlock.ToolResult u.1
                  (O.dispatchTool u.2.1 u.2.2).1 (O.dispatchTool u.2.1 u.2.2).2])
            let executed := tool_uses.foldl step (stats', [])
            agentLoop O model cfg fuel
              (msgs' ++ [⟨Role.User, executed.2⟩]) executed.1 scan.1 (calls + 1)

/-- The post-loop phase of `agent_review.rs::investigate`
(lines 375-423): extract findings; when none were extracted, append the
forced-summary prompt, make one more `converse` call without tools, and
re-extract once. -/
def investigatePost (O : LoopOracle) (model : Str)
    (msgs : List ConversationMessage) (stats : ReviewStats) (calls : Nat) :
    Except Str (List AgentFinding × ReviewStats × Nat) :=
  if extract_findings O.parseFindings msgs = [] then
    match O.converse calls with
    | .ok r =>
      .ok (extract_findings O.parseFindings
        ((msgs ++ [⟨Role.User, [ContentBlock.Text forcedFindingsText]⟩]) ++
          [⟨Role.Assistant, r.content⟩]),
        stats.accumulate r.usage model, calls + 1)
    | .error _ => .ok (extract_findings O.parseFindings msgs, stats, calls + 1)
  else .ok (extract_findings O.parseFindings msgs, stats, calls)

/-- Embedding of `agent_review.rs::investigate` (lines 141-424).  The
initial user-message text (prompt assembly, lines 152-221) is passed in as
`initialText`; the result carries the extracted findings, the stats, and
the number of `converse` invocations made. -/
def investigate (O : LoopOracle) (model initialText : Str)
    (cfg : AgentReviewConfig) :
    Except Str (List AgentFinding × ReviewStats × Nat) :=
  match agentLoop O model cfg cfg.max_turns
      [⟨Role.User, [ContentBlock.Text initialText]⟩] ReviewStats.defaultS [] 0 with
  | .error e => .error e
  | .ok (msgs, stats, calls) => investigatePost O model msgs stats calls

-- Concrete inputs for the C6 counterexample and witness.

/-- The finding the forced-summary reply parses to. -/
def c6finding : AgentFinding :=
  ⟨strOf "X", strOf "High", strOf "d", [], strOf "a", strOf "r", 1, []⟩

/-- An oracle whose every LLM reply ends the turn with text `"[J]"`, which
parses to `[c6finding]`. -/
def c6oracle : LoopOracle :=
  ⟨fun _ => .ok ⟨[ContentBlock.Text (strOf "[J]")], StopReason.EndTurn, ⟨0, 0⟩⟩,
   fun _ _ => (strOf "", false),
   fun _ => none,
   fun s => if s = strOf "[J]" then some [c6finding] else none,
   fun _ => 0⟩

/-- An agent-review configuration with `max_turns = 0`. -/
def c6cfg : AgentReviewConfig := ⟨0, 8192, 20⟩

/-- C6 counterexample: the claim says the loop at `max_turns = 0` exits
with zero findings and makes no LLM call, but the forced-summary path
fires (extraction from an empty conversation yields nothing), makes one
`converse` call, and may return findings parsed from that reply. -/
theorem investigate_zero_turns_counterexample :
    c6cfg.max_turns = 0 ∧
    investigate c6oracle (strOf "m") (strOf "init") c6cfg =
      .ok ([c6finding], ReviewStats.defaultS.accumulate ⟨0, 0⟩ (strOf "m"), 1) ∧
    ([c6finding] : List AgentFinding) ≠ [] ∧ (1 : Nat) ≠ 0 :=
  ⟨rfl, rfl, by decide, by decide⟩

/-- C6 amended: at `max_turns = 0` the main loop performs no `converse`
call; extraction then yields zero findings, so exactly one forced-summary
`converse` call (without tools) is made, and the findings returned are
those extracted from its response — zero when the call fails. -/
theorem investigate_zero_turns (O : LoopOracle) (model initialText : Str)
    (cfg : AgentReviewConfig) (h : cfg.max_turns = 0) :
    investigate O model initialText cfg =
      match O.converse 0 with
      | .ok r =>
        .ok (extract_findings O.parseFindings
          (([⟨Role.User, [ContentBlock.Text initialText]⟩] ++
            [⟨Role.User, [ContentBlock.Text forcedFindingsText]⟩]) ++
            [⟨Role.Assistant, r.content⟩]),
          ReviewStats.defaultS.accumulate r.usage model, 1)
      | .error _ => .ok ([], ReviewStats.defaultS, 1) := by
  have hext : extract_findings O.parseFindings
      [⟨Role.User, [ContentBlock.Text initialText]⟩] = [] := rfl
  unfold investigate
  rw [h]
  have h0 : agentLoop O model cfg 0
      [⟨Role.User, [ContentBlock.Text initialText]⟩] ReviewStats.defaultS [] 0 =
      .ok ([⟨Role.User, [ContentBlock.Text initialText]⟩], ReviewStats.defaultS, 0) := rfl
  rw [h0]
  show investigatePost O model
      [⟨Role.User, [ContentBlock.Text initialText]⟩] ReviewStats.defaultS 0 = _
  unfold investigatePost
  rw [hext]
  rw [if_pos rfl]

/-- Witness for `investigate_zero_turns` at the concrete zero-turn
configuration and oracle. -/
theorem investigate_zero_turns_witness :
    investigate c6oracle (strOf "m") (strOf "forced-demo") c6cfg =
      match c6oracle.converse 0 with
      | .ok r =>
        .ok (extract_findings c6oracle.parseFindings
          (([⟨Role.User, [ContentBlock.Text (strOf "forced-demo")]⟩] ++
            [⟨Role.User, [ContentBlock.Text forcedFindingsText]⟩]) ++
            [⟨Role.Assistant, r.content⟩]),
          ReviewStats.defaultS.accumulate r.usage (strOf "m"), 1)
      | .error _ => .ok ([], ReviewStats.defaultS, 1) :=
  investigate_zero_turns c6oracle (strOf "m") (strOf "forced-demo") c6cfg rfl

-- ## C5: `extract_json` on fenced and prose-wrapped documents

theorem occursAt_head_getElem {n h : Str} {i : Nat} {c : Char}
    (hocc : occursAt n h i) (hn : n[0]? = some c) : h[i]? = some c := by
  have hk : 0 < n.length := by
    cases n with
    | nil => simp at hn
    | cons a t => simp
  have hg := occursAt_getElem hocc (k := 0) hk
  rw [Nat.add_zero] at hg
  rw [hg, hn]

theorem occursAt_append_shift {n A B : Str} {k : Nat}
    (hocc : occursAt n (A ++ B) (A.length + k)) : occursAt n B k := by
  unfold occursAt at hocc ⊢
  rwa [List.drop_append] at hocc

/-- In `'\n' :: d ++ '\n' :: suffix` with `d` backtick-free and `suffix`
starting with a fence, the first occurrence of the closing fence is at
index `d.length + 2`. -/
theorem findSub_fence_content (d suffix : Str) (hb : ∀ c ∈ d, c ≠ '`')
    (hsuf : (strOf "```").IsPrefix suffix) :
    findSub (strOf "```") ('\n' :: (d ++ '\n' :: suffix)) = some (d.length + 2) := by
  apply findSub_eq_some_of
  · unfold occursAt
    have hsplit : '\n' :: (d ++ '\n' :: suffix) = (('\n' :: d) ++ ['\n']) ++ suffix := by
      simp
    have hlen : (('\n' :: d) ++ ['\n']).length = d.length + 2 := by simp
    rw [hsplit, ← hlen, List.drop_left]
    exact hsuf
  · intro j hj hocc
    have hchar := occursAt_head_getElem hocc (c := '`') (by decide)
    rcases (by omega : j = 0 ∨ (1 ≤ j ∧ j ≤ d.length) ∨ j = d.length + 1) with
      rfl | ⟨h1, h2⟩ | rfl
    · rw [List.getElem?_cons_zero] at hchar
      exact absurd hchar (by decide)
    · obtain ⟨k, rfl⟩ := Nat.exists_eq_add_of_le h1
      rw [show 1 + k = k + 1 from by omega, List.getElem?_cons_succ,
        List.getElem?_append_left (by omega)] at hchar
      exact absurd rfl (hb '`' (mem_of_getElem?_some hchar))
    · rw [show d.length + 1 = d.length + 1 from rfl, List.getElem?_cons_succ,
        List.getElem?_append_right (Nat.le_refl d.length)] at hchar
      rw [Nat.sub_self, List.getElem?_cons_zero] at hchar
      exact absurd hchar (by decide)

theorem take_fence_content (d suffix : Str) :
    ('\n' :: (d ++ '\n' :: suffix)).take (d.length + 2) = '\n' :: (d ++ ['\n']) := by
  rw [show d.length + 2 = d.length + 1 + 1 from rfl, List.take_succ_cons,
    List.take_append 1]
  rfl

/-- `trim` of `"\n" ++ d ++ "\n"` is `d` when `d` neither starts nor ends
with whitespace. -/
theorem trimStr_wrap (d : Str)
    (hw1 : ∀ c, d.head? = some c → Char.isWhitespace c = false)
    (hw2 : ∀ c, d.getLast? = some c → Char.isWhitespace c = false) :
    trimStr ('\n' :: (d ++ ['\n'])) = d := by
  unfold trimStr
  rw [List.dropWhile_cons, if_pos (by decide)]
  cases hd : d with
  | nil => decide
  | cons a tl =>
    have ha := hw1 a (by simp [hd])
    rw [List.cons_append, List.dropWhile_cons, if_neg (by simp [ha])]
    have hrev : (a :: (tl ++ ['\n'])).reverse = '\n' :: (a :: tl).reverse := by
      simp
    rw [hrev, List.dropWhile_cons, if_pos (by decide)]
    have hrw : (a :: tl).reverse.dropWhile Char.isWhitespace = (a :: tl).reverse := by
      cases hrv : (a :: tl).reverse with
      | nil => exact absurd hrv (by simp)
      | cons b rb =>
        have hbl : d.getLast? = some b := by
          rw [hd, ← List.head?_reverse, hrv]
          rfl
        rw [List.dropWhile_cons, if_neg (by simp [hw2 b hbl])]
    rw [hrw, List.reverse_reverse]

/-- A document wrapped in a ` ```json ` fence is extracted exactly. -/
theorem extract_json_json_fence (d : Str)
    (hb : ∀ c ∈ d, c ≠ '`')
    (hw1 : ∀ c, d.head? = some c → Char.isWhitespace c = false)
    (hw2 : ∀ c, d.getLast? = some c → Char.isWhitespace c = false) :
    extract_json (strOf "```json" ++ '\n' :: (d ++ '\n' :: strOf "```")) = some d := by
  have h1 : findSub (strOf "```json")
      (strOf "```json" ++ '\n' :: (d ++ '\n' :: strOf "```")) = some 0 := by
    apply findSub_eq_some_of
    · unfold occursAt
      rw [List.drop_zero]
      exact ⟨_, rfl⟩
    · intro j hj
      omega
  have h2 : (strOf "```json" ++ '\n' :: (d ++ '\n' :: strOf "```")).drop (0 + 7) =
      '\n' :: (d ++ '\n' :: strOf "```") := by
    rw [show 0 + 7 = (strOf "```json").length from rfl, List.drop_left]
  have h3 := findSub_fence_content d (strOf "```") hb (List.prefix_refl _)
  have h4 := take_fence_content d (strOf "```")
  simp only [extract_json, h1, h2, h3, h4, trimStr_wrap d hw1 hw2]

/-- A document wrapped in a bare fence, starting with `{` or `[`, is
extracted exactly. -/
theorem extract_json_bare_fence (d : Str)
    (hb : ∀ c ∈ d, c ≠ '`')
    (hw1 : ∀ c, d.head? = some c → Char.isWhitespace c = false)
    (hw2 : ∀ c, d.getLast? = some c → Char.isWhitespace c = false)
    (hh : d.head? = some '{' ∨ d.head? = some '[') :
    extract_json (strOf "```" ++ '\n' :: (d ++ '\n' :: strOf "```")) = some d := by
  have hnone : findSub (strOf "```json")
      (strOf "```" ++ '\n' :: (d ++ '\n' :: strOf "```")) = none := by
    rw [findSub_eq_none_iff]
    intro j hocc
    have hocc' : (strOf "```json").IsPrefix
        ((strOf "```" ++ '\n' :: (d ++ '\n' :: strOf "```")).drop j) := hocc
    have hlen := hocc'.length_le
    rw [List.length_drop] at hlen
    have hlen2 : (strOf "```" ++ '\n' :: (d ++ '\n' :: strOf "```")).length =
        d.length + 8 := by
      simp [strOf]
    have h7 : (strOf "```json").length = 7 := rfl
    have hj : j ≤ d.length + 1 := by omega
    rcases (by omega : j = 0 ∨ j = 1 ∨ j = 2 ∨ j = 3 ∨ 4 ≤ j) with
      rfl | rfl | rfl | rfl | h4
    · have hg := occursAt_getElem hocc (k := 3) (by decide)
      rw [show (strOf "```" ++ '\n' :: (d ++ '\n' :: strOf "```"))[(0:Nat) + 3]? =
        some '\n' from by simp [strOf]] at hg
      exact absurd hg (by decide)
    · have hg := occursAt_getElem hocc (k := 2) (by decide)
      rw [show (strOf "```" ++ '\n' :: (d ++ '\n' :: strOf "```"))[(1:Nat) + 2]? =
        some '\n' from by simp [strOf]] at hg
      exact absurd hg (by decide)
    · have hg := occursAt_getElem hocc (k := 1) (by decide)
      rw [show (strOf "```" ++ '\n' :: (d ++ '\n' :: strOf "```"))[(2:Nat) + 1]? =
        some '\n' from by simp [strOf]] at hg
      exact absurd hg (by decide)
    · have hg := occursAt_head_getElem hocc (c := '`') (by decide)
      rw [show (strOf "```" ++ '\n' :: (d ++ '\n' :: strOf "```"))[(3:Nat)]? =
        some '\n' from by simp [strOf]] at hg
      exact absurd hg (by decide)
    · obtain ⟨k, rfl⟩ := Nat.exists_eq_add_of_le h4
      have hsplit : (strOf "```" ++ '\n' :: (d ++ '\n' :: strOf "```")) =
          (strOf "```" ++ ['\n']) ++ (d ++ '\n' :: strOf "```") := by simp
      rw [hsplit, show (4 : Nat) + k = (strOf "```" ++ ['\n']).length + k from by simp [strOf]] at hocc
      have hocc2 := occursAt_append_shift hocc
      have hg := occursAt_head_getElem hocc2 (c := '`') (by decide)
      rw [List.getElem?_append_left (by omega)] at hg
      exact absurd rfl (hb '`' (mem_of_getElem?_some hg))
  have h1 : findSub (strOf "```")
      (strOf "```" ++ '\n' :: (d ++ '\n' :: strOf "```")) = some 0 := by
    apply findSub_eq_some_of
    · unfold occursAt
      rw [List.drop_zero]
      exact ⟨_, rfl⟩
    · intro j hj
      omega
  have h2 : (strOf "```" ++ '\n' :: (d ++ '\n' :: strOf "```")).drop (0 + 3) =
      '\n' :: (d ++ '\n' :: strOf "```") := by
    rw [show 0 + 3 = (strOf "```").length from rfl, List.drop_left]
  have h3 := findSub_fence_content d (strOf "```") hb (List.prefix_refl _)
  have h4 := take_fence_content d (strOf "```")
  simp only [extract_json, hnone, extract_json_fence, h1, h2, h3, h4,
    trimStr_wrap d hw1 hw2]
  rw [if_pos hh]

/-- A `{...}` object wrapped in fence-free prose with no braces in the
prose is extracted exactly by the brace-slice fallback. -/
theorem extract_json_prose (d p1 p2 : Str)
    (hb : ∀ c ∈ p1 ++ (d ++ p2), c ≠ '`')
    (hp1 : '{' ∉ p1) (hp2 : '}' ∉ p2)
    (hh : d.head? = some '{') (hl : d.getLast? = some '}') :
    extract_json (p1 ++ (d ++ p2)) = some d := by
  have hdnil : d ≠ [] := by
    intro h
    rw [h] at hh
    exact absurd hh (by decide)
  have hdlen : 1 ≤ d.length := by
    cases d with
    | nil => exact absurd rfl hdnil
    | cons a tl => simp
  have hnb : ∀ (n : Str) (c0 : Char), n[0]? = some c0 → c0 = '`' →
      findSub n (p1 ++ (d ++ p2)) = none := by
    intro n c0 hn hc0
    rw [findSub_eq_none_iff]
    intro j hocc
    have hg := occursAt_head_getElem hocc hn
    rw [hc0] at hg
    exact absurd rfl (hb '`' (mem_of_getElem?_some hg))
  have hnone1 := hnb (strOf "```json") '`' (by decide) rfl
  have hnone2 := hnb (strOf "```") '`' (by decide) rfl
  have hfind : findChar '{' (p1 ++ (d ++ p2)) = some p1.length := by
    unfold findChar
    apply findSub_eq_some_of
    · unfold occursAt
      rw [List.drop_left]
      obtain ⟨a, tl, hdc⟩ : ∃ a tl, d = a :: tl := by
        cases d with
        | nil => exact absurd rfl hdnil
        | cons a tl => exact ⟨a, tl, rfl⟩
      have ha : a = '{' := by
        rw [hdc] at hh
        simpa using hh
      rw [hdc, ha]
      exact ⟨tl ++ p2, rfl⟩
    · intro j hj hocc
      have hg := occursAt_head_getElem hocc (c := '{') (by decide)
      rw [List.getElem?_append_left hj] at hg
      exact absurd (mem_of_getElem?_some hg) hp1
  have hrfind : rfindChar '}' (p1 ++ (d ++ p2)) = some (p1.length + d.length - 1) := by
    unfold rfindChar
    have hrev : (p1 ++ (d ++ p2)).reverse = p2.reverse ++ (d.reverse ++ p1.reverse) := by
      simp
    have hfs : findSub ['}'] (p1 ++ (d ++ p2)).reverse = some p2.reverse.length := by
      apply findSub_eq_some_of
      · unfold occursAt
        rw [hrev, List.drop_left]
        obtain ⟨b, rb, hrb⟩ : ∃ b rb, d.reverse = b :: rb := by
          cases hrv : d.reverse with
          | nil => exact absurd (by simpa using hrv) hdnil
          | cons b rb => exact ⟨b, rb, rfl⟩
        have hbv : b = '}' := by
          have hthis := List.head?_reverse d
          rw [hrb, hl] at hthis
          simpa using hthis
        rw [hrb, hbv]
        exact ⟨rb ++ p1.reverse, rfl⟩
      · intro j hj hocc
        rw [hrev] at hocc
        have hg := occursAt_head_getElem hocc (c := '}') (by decide)
        rw [List.getElem?_append_left hj] at hg
        have hmem : '}' ∈ p2.reverse := mem_of_getElem?_some hg
        exact absurd (by simpa using hmem) hp2
    rw [hfs]
    simp [List.length_append]
    omega
  have hstep : extract_json_braces (p1 ++ (d ++ p2)) = some d := by
    simp only [extract_json_braces, hfind, hrfind]
    rw [if_pos (by omega)]
    rw [List.drop_left,
      show p1.length + d.length - 1 + 1 - p1.length = d.length from by omega,
      List.take_left]
  simp only [extract_json, hnone1, extract_json_fence, hnone2, hstep]

theorem head_not_ws_of_dropWhile_eq {d : Str}
    (h : d.dropWhile Char.isWhitespace = d) :
    ∀ c, d.head? = some c → Char.isWhitespace c = false := by
  intro c hc
  by_contra hw
  have hwt : Char.isWhitespace c = true := by
    cases hcc : Char.isWhitespace c
    · exact absurd hcc hw
    · rfl
  cases d with
  | nil => simp at hc
  | cons a tl =>
    have hac : a = c := by simpa using hc
    rw [List.dropWhile_cons, hac, if_pos hwt] at h
    have hlen := congrArg List.length h
    have hle := (List.dropWhile_suffix (l := tl) Char.isWhitespace).sublist.length_le
    simp at hlen
    omega

theorem last_not_ws_of_dropWhile_eq {d : Str}
    (h : d.reverse.dropWhile Char.isWhitespace = d.reverse) :
    ∀ c, d.getLast? = some c → Char.isWhitespace c = false := by
  intro c hc
  have hh : d.reverse.head? = some c := by rw [List.head?_reverse, hc]
  exact head_not_ws_of_dropWhile_eq h c hh

/-- C5 counterexample: the claim asserts round-tripping also for a valid
top-level ARRAY surrounded by fence-free prose.  `"[1]"` is valid JSON
and `"x [1]"` is such a prose wrapping, but `extract_json` has no
bracket handling outside fences: the brace fallback finds no `'{'`, the
raw text `"x [1]"` is returned, and it does not parse as JSON. -/
theorem extract_json_prose_array_counterexample :
    jsonParse (strOf "[1]") = some (Json.arr [Json.num 1]) ∧
    containsSub (strOf "```") (strOf "x [1]") = false ∧
    extract_json (strOf "x [1]") = some (strOf "x [1]") ∧
    jsonParse (strOf "x [1]") = none :=
  ⟨rfl, by decide, by decide, rfl⟩

/-- C5 (amended): `extract_json` recovers a trimmed backtick-free
document `d` exactly (so the result parses as JSON whenever `d` does)
from a ` ```json ` fence, from a bare fence when `d` starts with `{` or
`[`, and from surrounding fence-free prose when `d` is a `{...}` object
and the prose contains no braces; prose-wrapped top-level arrays are NOT
recovered (see the counterexample). -/
theorem extract_json_wrapped (d p1 p2 : Str) :
    ((∀ c ∈ d, c ≠ '`') →
      d.dropWhile Char.isWhitespace = d →
      d.reverse.dropWhile Char.isWhitespace = d.reverse →
      extract_json (strOf "```json" ++ '\n' :: (d ++ '\n' :: strOf "```")) = some d) ∧
    ((∀ c ∈ d, c ≠ '`') →
      d.dropWhile Char.isWhitespace = d →
      d.reverse.dropWhile Char.isWhitespace = d.reverse →
      (d.head? = some '{' ∨ d.head? = some '[') →
      extract_json (strOf "```" ++ '\n' :: (d ++ '\n' :: strOf "```")) = some d) ∧
    ((∀ c ∈ p1 ++ (d ++ p2), c ≠ '`') → '{' ∉ p1 → '}' ∉ p2 →
      d.head? = some '{' → d.getLast? = some '}' →
      extract_json (p1 ++ (d ++ p2)) = some d) :=
  ⟨fun hb ht1 ht2 =>
    extract_json_json_fence d hb (head_not_ws_of_dropWhile_eq ht1)
      (last_not_ws_of_dropWhile_eq ht2),
   fun hb ht1 ht2 hh =>
    extract_json_bare_fence d hb (head_not_ws_of_dropWhile_eq ht1)
      (last_not_ws_of_dropWhile_eq ht2) hh,
   fun hb hp1 hp2 hh hl => extract_json_prose d p1 p2 hb hp1 hp2 hh hl⟩

/-- Witness for `extract_json_wrapped`: a fenced object, a fenced array
and a prose-wrapped object are each recovered exactly. -/
theorem extract_json_wrapped_witness :
    extract_json (strOf "```json" ++ '\n' :: (['{', '}'] ++ '\n' :: strOf "```")) =
      some ['{', '}'] ∧
    extract_json (strOf "```" ++ '\n' :: (['[', '1', ']'] ++ '\n' :: strOf "```")) =
      some ['[', '1', ']'] ∧
    extract_json (strOf "see: " ++ (['{', '}'] ++ strOf " end")) = some ['{', '}'] :=
  ⟨(extract_json_wrapped ['{', '}'] [] []).1 (by decide) (by decide) (by decide),
   (extract_json_wrapped ['[', '1', ']'] [] []).2.1 (by decide) (by decide)
     (by decide) (by decide),
   (extract_json_wrapped ['{', '}'] (strOf "see: ") (strOf " end")).2.2
     (by decide) (by decide) (by decide) (by decide) (by decide)⟩
